import Mathlib

/-!
Verification of the diff/patch algebra, the chunked snapshot store, the
series codec and the bisection search of the `tshistory` versioned
time-series storage engine.

The embedding is shallow:

* a pandas `Series` becomes an association list `Ser := List (Nat × Val)`,
  pairing a value date (a timestamp, modelled as a natural number of
  nanoseconds) with a value.  A value is a float (modelled as a rational,
  `Val.F`), a string (modelled as its UTF-8 byte sequence, `Val.S`), or a
  null (`NaN`/`None`, `Val.N`);
* `SeriesServices.diff` and `SeriesServices.patch` (util.py) are
  translated function by function;
* the per-series chunk table of snapshot.py becomes a `Store`: a list of
  chunks addressed by position, a list of revision heads and a changeset
  counter.  `Snapshot.buckets`, `insert_buckets`, `create`, `rawchunks`
  and `update` are translated over it, and `timeseries._update` (tsio.py)
  on top of them;
* the chunk payload codec (`Snapshot._serialize` / `_decodechunk` /
  `_chunks_to_ts`) is modelled at the byte level, up to the external zlib
  compression layer (treated as a bijection, as its contract states):
  serialisation produces the bytes handed to `zlib.compress`, decoding
  consumes the bytes produced by `zlib.decompress`.
-/

/-- A series value: a float (as a rational), a string (as its UTF-8
bytes), or a null (`NaN` / `None`). -/
inductive Val : Type
  | F : ℚ → Val
  | S : List Nat → Val
  | N : Val
deriving DecidableEq, Repr

/-- A pandas series: an association list from value dates (timestamps as
naturals) to values. -/
abbrev Ser := List (Nat × Val)

namespace Ser

/-- The index of a series, in positional order. -/
def keys (s : Ser) : List Nat := s.map Prod.fst

/-- Label lookup in a series (first matching entry). -/
def slookup : Ser → Nat → Option Val
  | [], _ => none
  | (j, v) :: rest, i => if i = j then some v else slookup rest i

/-- `pd.isnull` on one value. -/
def isNullV : Val → Bool
  | .N => true
  | _ => false

/-- `s[~s.isnull()]` / `s.dropna()`. -/
def dropNulls (s : Ser) : Ser := s.filter (fun p => !isNullV p.2)

/-- `s.index.min()` (0 on an empty series, which the code never queries). -/
def minKey : Ser → Nat
  | [] => 0
  | (i, _) :: rest => (keys rest).foldl Nat.min i

/-- `s.index.max()` (0 on an empty series, which the code never queries). -/
def maxKey : Ser → Nat
  | [] => 0
  | (i, _) :: rest => (keys rest).foldl Nat.max i

/-- `s.loc[a:b]`: the entries whose date lies in the closed interval. -/
def sliceSer (a b : Nat) (s : Ser) : Ser :=
  s.filter (fun p => a ≤ p.1 && p.1 ≤ b)

/-- A series index with no duplicates, as `insert` asserts. -/
def NodupKeys (s : Ser) : Prop := (keys s).Nodup

/-- A series index that is strictly increasing, the normal form every
stored series has. -/
def SortedSer (s : Ser) : Prop := (keys s).Pairwise (· < ·)

instance : DecidablePred NodupKeys := fun s => by
  unfold NodupKeys; infer_instance

instance : DecidablePred SortedSer := fun s => by
  unfold SortedSer; infer_instance

end Ser

open Ser

/-- Absolute value of a rational, as `numpy.absolute` inside
`np.isclose`. -/
def rabs (q : ℚ) : ℚ := if q < 0 then -q else q

namespace SeriesServices

/-- The hard-coded float comparison tolerance `_precision = 1e-14`. -/
def prec : ℚ := 1 / 10 ^ 14

/-- One element of `np.isclose(base, other, rtol=0, atol=1e-14)` for
float series, respectively `base == other` for string (object) series:
two floats compare close, two equal strings compare equal, and any
comparison involving a null is false (`isclose` is false on `NaN`, and
the null-vs-value object comparison is false). -/
def eqclose : Val → Val → Bool
  | .F a, .F b => rabs (a - b) ≤ prec
  | .S a, .S b => a = b
  | _, _ => false

/-- `mask_equal | mask_na_equal`: values compare equal when they are
close/equal or both null. -/
def maskEqual (a b : Val) : Bool :=
  eqclose a b || (isNullV a && isNullV b)

/-- `SeriesServices.diff(base, other)` from util.py, line by line:
if `base` is `None` return `other`; drop the nulls of `base` and if
nothing remains return `other`; otherwise keep the overlapping entries
of `other` whose value is not `maskEqual` to the base value, and the
non-overlapping entries of `other` whose value is not null, overlap
first (as `pd.concat([diff_overlap, diff_new])` does). -/
def diff (base : Option Ser) (other : Ser) : Ser :=
  match base with
  | none => other
  | some b =>
    let b' := dropNulls b
    if b'.isEmpty then other
    else
      let dOverlap := (other.filter (fun p => (keys b').contains p.1)).filter
        (fun p => !maskEqual ((slookup b' p.1).getD .N) p.2)
      let dNew := (other.filter (fun p => !(keys b').contains p.1)).filter
        (fun p => !isNullV p.2)
      dOverlap ++ dNew

/-- Insert a date into a sorted duplicate-free index, keeping it sorted
and duplicate-free; building block of `pandas.Index.union`. -/
def sortedInsert (i : Nat) : List Nat → List Nat
  | [] => [i]
  | j :: rest =>
    if i < j then i :: j :: rest
    else if i = j then j :: rest
    else j :: sortedInsert i rest

/-- `base.index.union(diff.index)`: the sorted duplicate-free union of
the two indexes. -/
def indexUnion (a b : List Nat) : List Nat :=
  (a ++ b).foldr sortedInsert []

/-- `SeriesServices.patch(base, diff)` from util.py: reindex on the
union of both indexes, take the value from `diff` where it has one and
from `base` elsewhere (`patched[basei] = base; patched[diffi] = diff`).
The `.getD .N` fallback is never reached: every union date belongs to
one of the two series. -/
def patch (base d : Ser) : Ser :=
  (indexUnion (keys base) (keys d)).map
    (fun i => (i, match slookup d i with
                  | some v => v
                  | none => (slookup base i).getD .N))

end SeriesServices

namespace Ser

theorem mem_keys {s : Ser} {i : Nat} : i ∈ keys s ↔ ∃ v, (i, v) ∈ s := by
  constructor
  · intro h
    rcases List.mem_map.1 h with ⟨p, hp, rfl⟩
    exact ⟨p.2, hp⟩
  · rintro ⟨v, hv⟩
    exact List.mem_map.2 ⟨(i, v), hv, rfl⟩

theorem slookup_eq_none {s : Ser} {i : Nat} : slookup s i = none ↔ i ∉ keys s := by
  induction s with
  | nil => simp [slookup, keys]
  | cons p rest ih =>
    obtain ⟨j, v⟩ := p
    by_cases h : i = j <;> simp [slookup, keys, h, ih]

theorem mem_of_slookup {s : Ser} {i : Nat} {v : Val} (h : slookup s i = some v) :
    (i, v) ∈ s := by
  induction s with
  | nil => simp [slookup] at h
  | cons p rest ih =>
    obtain ⟨j, w⟩ := p
    by_cases hij : i = j
    · subst hij
      simp [slookup] at h
      simp [h]
    · simp [slookup, hij] at h
      exact List.mem_cons_of_mem _ (ih h)

theorem slookup_isSome {s : Ser} {i : Nat} : (slookup s i).isSome = true ↔ i ∈ keys s := by
  rcases h : slookup s i with _ | v
  · simpa [h] using slookup_eq_none.1 h
  · simp only [h, Option.isSome_some, true_iff]
    exact mem_keys.2 ⟨v, mem_of_slookup h⟩

theorem slookup_of_mem {s : Ser} (hs : NodupKeys s) {i : Nat} {v : Val}
    (h : (i, v) ∈ s) : slookup s i = some v := by
  induction s with
  | nil => simp at h
  | cons p rest ih =>
    obtain ⟨j, w⟩ := p
    have hs' : j ∉ keys rest ∧ (keys rest).Nodup := by
      simpa [NodupKeys, keys] using hs
    rcases List.mem_cons.1 h with heq | hmem
    · rw [Prod.mk.injEq] at heq
      obtain ⟨rfl, rfl⟩ := heq
      simp [slookup]
    · have hj : i ≠ j := by
        rintro rfl
        exact hs'.1 (mem_keys.2 ⟨v, hmem⟩)
      have := ih hs'.2 hmem
      simp [slookup, hj, this]

theorem keys_sublist_of_filter {s : Ser} {p : Nat × Val → Bool} :
    (keys (s.filter p)).Sublist (keys s) :=
  (List.filter_sublist s).map Prod.fst

theorem nodupKeys_filter {s : Ser} (hs : NodupKeys s) (p : Nat × Val → Bool) :
    NodupKeys (s.filter p) :=
  keys_sublist_of_filter.nodup hs

theorem mem_keys_filter {s : Ser} {p : Nat × Val → Bool} {i : Nat} :
    i ∈ keys (s.filter p) ↔ ∃ v, (i, v) ∈ s ∧ p (i, v) = true := by
  constructor
  · intro h
    rcases mem_keys.1 h with ⟨v, hv⟩
    rcases List.mem_filter.1 hv with ⟨h1, h2⟩
    exact ⟨v, h1, h2⟩
  · rintro ⟨v, h1, h2⟩
    exact mem_keys.2 ⟨v, List.mem_filter.2 ⟨h1, h2⟩⟩

theorem slookup_filter {s : Ser} (hs : NodupKeys s) (p : Nat × Val → Bool) (i : Nat) :
    slookup (s.filter p) i =
      (slookup s i).bind (fun v => if p (i, v) then some v else none) := by
  rcases h : slookup s i with _ | v
  · have : i ∉ keys (s.filter p) := by
      intro hmem
      exact (slookup_eq_none.1 h) (keys_sublist_of_filter.mem hmem)
    simp [slookup_eq_none.2 this]
  · have hmem : (i, v) ∈ s := mem_of_slookup h
    by_cases hp : p (i, v) = true
    · have : (i, v) ∈ s.filter p := List.mem_filter.2 ⟨hmem, hp⟩
      simp [slookup_of_mem (nodupKeys_filter hs p) this, hp]
    · have : i ∉ keys (s.filter p) := by
        intro hmem2
        rcases mem_keys_filter.1 hmem2 with ⟨w, hw1, hw2⟩
        have : w = v := by
          have := slookup_of_mem hs hw1
          rw [h] at this
          exact (Option.some.injEq .. ▸ this).symm
        exact hp (this ▸ hw2)
      simp [slookup_eq_none.2 this, hp]

theorem slookup_append {a b : Ser} {i : Nat} :
    slookup (a ++ b) i = (slookup a i).orElse (fun _ => slookup b i) := by
  induction a with
  | nil => simp [slookup]
  | cons p rest ih =>
    obtain ⟨j, v⟩ := p
    by_cases h : i = j <;> simp [slookup, h, ih]

theorem slookup_dropNulls {s : Ser} (hs : NodupKeys s) (i : Nat) :
    slookup (dropNulls s) i =
      (slookup s i).bind (fun v => if isNullV v then none else some v) := by
  have := slookup_filter hs (fun p => !isNullV p.2) i
  simp only [dropNulls, this]
  rcases slookup s i with _ | v
  · simp [Option.bind]
  · cases v <;> simp [isNullV]

theorem sortedSer_nodup {s : Ser} (hs : SortedSer s) : NodupKeys s :=
  hs.imp Nat.ne_of_lt

end Ser

namespace SeriesServices

theorem mem_sortedInsert {i x : Nat} : ∀ {l : List Nat},
    x ∈ sortedInsert i l ↔ x = i ∨ x ∈ l := by
  intro l
  induction l with
  | nil => simp [sortedInsert]
  | cons j rest ih =>
    by_cases h1 : i < j
    · simp [sortedInsert, h1]
    · by_cases h2 : i = j
      · subst h2
        simp [sortedInsert, h1]
      · simp [sortedInsert, h1, h2, ih]
        tauto

theorem sorted_sortedInsert {i : Nat} : ∀ {l : List Nat},
    l.Pairwise (· < ·) → (sortedInsert i l).Pairwise (· < ·) := by
  intro l
  induction l with
  | nil => simp [sortedInsert]
  | cons j rest ih =>
    intro hl
    rw [List.pairwise_cons] at hl
    by_cases h1 : i < j
    · simp only [sortedInsert, if_pos h1]
      rw [List.pairwise_cons]
      refine ⟨?_, List.pairwise_cons.2 hl⟩
      intro b hb
      rcases List.mem_cons.1 hb with rfl | hb
      · exact h1
      · exact h1.trans (hl.1 b hb)
    · by_cases h2 : i = j
      · subst h2
        simp [sortedInsert, h1, List.pairwise_cons.2 hl]
      · have hj : j < i := by omega
        simp only [sortedInsert, if_neg h1, if_neg h2]
        rw [List.pairwise_cons]
        refine ⟨?_, ih hl.2⟩
        intro b hb
        rcases mem_sortedInsert.1 hb with rfl | hb
        · exact hj
        · exact hl.1 b hb

theorem sorted_indexUnion {a b : List Nat} : (indexUnion a b).Pairwise (· < ·) := by
  unfold indexUnion
  induction (a ++ b) with
  | nil => simp
  | cons x rest ih => exact sorted_sortedInsert ih

theorem mem_indexUnion {a b : List Nat} {x : Nat} :
    x ∈ indexUnion a b ↔ x ∈ a ∨ x ∈ b := by
  unfold indexUnion
  rw [← List.mem_append]
  induction (a ++ b) with
  | nil => simp
  | cons y rest ih =>
    simp only [List.foldr_cons, mem_sortedInsert, ih, List.mem_cons]

theorem keys_patch {b d : Ser} : keys (patch b d) = indexUnion (keys b) (keys d) := by
  rw [patch, keys, List.map_map]
  have : ∀ x ∈ indexUnion (keys b) (keys d),
      (Prod.fst ∘ fun i => ((i, match slookup d i with
                                | some v => v
                                | none => (slookup b i).getD Val.N) : Nat × Val)) x = id x :=
    fun x _ => rfl
  rw [List.map_congr_left this, List.map_id]

theorem sorted_patch {b d : Ser} : SortedSer (patch b d) := by
  rw [SortedSer, keys_patch]
  exact sorted_indexUnion

theorem slookup_map_keys {l : List Nat} (hl : l.Nodup) (g : Nat → Val) (j : Nat) :
    slookup (l.map (fun i => (i, g i))) j = if j ∈ l then some (g j) else none := by
  induction l with
  | nil => simp [slookup]
  | cons x rest ih =>
    rw [List.nodup_cons] at hl
    by_cases h : j = x
    · subst h
      simp [slookup]
    · simp [slookup, h, ih hl.2]

theorem slookup_patch {b d : Ser} (i : Nat) :
    slookup (patch b d) i = (slookup d i).orElse (fun _ => slookup b i) := by
  have hu : (indexUnion (keys b) (keys d)).Nodup := sorted_indexUnion.imp Nat.ne_of_lt
  rw [patch, slookup_map_keys hu]
  by_cases hmem : i ∈ indexUnion (keys b) (keys d)
  · rw [if_pos hmem]
    rcases hd : slookup d i with _ | v
    · rcases hb : slookup b i with _ | w
      · exfalso
        rcases mem_indexUnion.1 hmem with h | h
        · exact slookup_eq_none.1 hb h
        · exact slookup_eq_none.1 hd h
      · simp [hd, hb, Option.orElse]
    · simp [hd, Option.orElse]
  · rw [if_neg hmem]
    have hd : slookup d i = none :=
      slookup_eq_none.2 (fun h => hmem (mem_indexUnion.2 (Or.inr h)))
    have hb : slookup b i = none :=
      slookup_eq_none.2 (fun h => hmem (mem_indexUnion.2 (Or.inl h)))
    simp [hd, hb, Option.orElse]

theorem patch_ne_nil {b d : Ser} (hb : b ≠ []) : patch b d ≠ [] := by
  obtain ⟨⟨i, v⟩, rest, rfl⟩ : ∃ p rest, b = p :: rest := by
    cases b with
    | nil => exact absurd rfl hb
    | cons p rest => exact ⟨p, rest, rfl⟩
  intro h
  have : i ∈ indexUnion (keys ((i, v) :: rest)) (keys d) :=
    mem_indexUnion.2 (Or.inl (by simp [keys]))
  rw [← keys_patch, h] at this
  simp [keys] at this

end SeriesServices

namespace Ser

theorem foldl_min_le_init : ∀ (l : List Nat) (a : Nat), l.foldl Nat.min a ≤ a := by
  intro l
  induction l with
  | nil => intro a; simp
  | cons x rest ih =>
    intro a
    calc (x :: rest).foldl Nat.min a = rest.foldl Nat.min (Nat.min a x) := rfl
    _ ≤ Nat.min a x := ih _
    _ ≤ a := Nat.min_le_left _ _

theorem foldl_min_le_mem : ∀ {l : List Nat} {x : Nat} (a : Nat), x ∈ l → l.foldl Nat.min a ≤ x := by
  intro l
  induction l with
  | nil => intro x a h; simp at h
  | cons y rest ih =>
    intro x a h
    rcases List.mem_cons.1 h with rfl | h
    · calc (x :: rest).foldl Nat.min a = rest.foldl Nat.min (Nat.min a x) := rfl
      _ ≤ Nat.min a x := foldl_min_le_init _ _
      _ ≤ x := Nat.min_le_right _ _
    · exact ih _ h

theorem le_foldl_min : ∀ {l : List Nat} {a c : Nat}, c ≤ a → (∀ x ∈ l, c ≤ x) →
    c ≤ l.foldl Nat.min a := by
  intro l
  induction l with
  | nil => intro a c h _; simpa using h
  | cons y rest ih =>
    intro a c h hl
    exact ih (Nat.le_min.2 ⟨h, hl y (by simp)⟩) (fun x hx => hl x (by simp [hx]))

theorem le_foldl_max : ∀ (l : List Nat) (a : Nat), a ≤ l.foldl Nat.max a := by
  intro l
  induction l with
  | nil => intro a; simp
  | cons x rest ih =>
    intro a
    calc a ≤ Nat.max a x := Nat.le_max_left _ _
    _ ≤ rest.foldl Nat.max (Nat.max a x) := ih _

theorem mem_le_foldl_max : ∀ {l : List Nat} {x : Nat} (a : Nat), x ∈ l → x ≤ l.foldl Nat.max a := by
  intro l
  induction l with
  | nil => intro x a h; simp at h
  | cons y rest ih =>
    intro x a h
    rcases List.mem_cons.1 h with rfl | h
    · calc x ≤ Nat.max a x := Nat.le_max_right _ _
      _ ≤ rest.foldl Nat.max (Nat.max a x) := le_foldl_max _ _
    · exact ih _ h

theorem foldl_max_le : ∀ {l : List Nat} {a c : Nat}, a ≤ c → (∀ x ∈ l, x ≤ c) →
    l.foldl Nat.max a ≤ c := by
  intro l
  induction l with
  | nil => intro a c h _; simpa using h
  | cons y rest ih =>
    intro a c h hl
    exact ih (Nat.max_le.2 ⟨h, hl y (by simp)⟩) (fun x hx => hl x (by simp [hx]))

theorem foldl_min_eq_or_mem : ∀ (l : List Nat) (a : Nat),
    l.foldl Nat.min a = a ∨ l.foldl Nat.min a ∈ l := by
  intro l
  induction l with
  | nil => simp
  | cons x r ih =>
    intro a
    rcases ih (Nat.min a x) with h | h
    · rw [List.foldl_cons, h]
      rcases Nat.le_total a x with hax | hax
      · exact Or.inl (by rw [show Nat.min a x = min a x from rfl]; omega)
      · refine Or.inr ?_
        have hmx : Nat.min a x = x := by rw [show Nat.min a x = min a x from rfl]; omega
        rw [hmx]
        exact List.mem_cons_self x r
    · refine Or.inr (List.mem_cons_of_mem _ ?_)
      rw [List.foldl_cons]
      exact h

theorem foldl_max_eq_or_mem : ∀ (l : List Nat) (a : Nat),
    l.foldl Nat.max a = a ∨ l.foldl Nat.max a ∈ l := by
  intro l
  induction l with
  | nil => simp
  | cons x r ih =>
    intro a
    rcases ih (Nat.max a x) with h | h
    · rw [List.foldl_cons, h]
      rcases Nat.le_total a x with hax | hax
      · refine Or.inr ?_
        have hmx : Nat.max a x = x := by rw [show Nat.max a x = max a x from rfl]; omega
        rw [hmx]
        exact List.mem_cons_self x r
      · exact Or.inl (by rw [show Nat.max a x = max a x from rfl]; omega)
    · refine Or.inr (List.mem_cons_of_mem _ ?_)
      rw [List.foldl_cons]
      exact h

theorem minKey_le_of_mem {s : Ser} {i : Nat} (h : i ∈ keys s) : minKey s ≤ i := by
  cases s with
  | nil => simp [keys] at h
  | cons p rest =>
    obtain ⟨j, v⟩ := p
    rcases List.mem_cons.1 (show i ∈ j :: keys rest from h) with rfl | h
    · exact foldl_min_le_init _ _
    · exact foldl_min_le_mem _ h

theorem le_maxKey_of_mem {s : Ser} {i : Nat} (h : i ∈ keys s) : i ≤ maxKey s := by
  cases s with
  | nil => simp [keys] at h
  | cons p rest =>
    obtain ⟨j, v⟩ := p
    rcases List.mem_cons.1 (show i ∈ j :: keys rest from h) with rfl | h
    · exact le_foldl_max _ _
    · exact mem_le_foldl_max _ h

theorem le_minKey {s : Ser} {c : Nat} (hs : s ≠ []) (h : ∀ i ∈ keys s, c ≤ i) :
    c ≤ minKey s := by
  cases s with
  | nil => exact absurd rfl hs
  | cons p rest =>
    obtain ⟨j, v⟩ := p
    refine le_foldl_min (h j ?_) (fun x hx => h x ?_)
    · exact List.mem_cons_self _ _
    · exact List.mem_cons_of_mem _ hx

theorem maxKey_le {s : Ser} {c : Nat} (hs : s ≠ []) (h : ∀ i ∈ keys s, i ≤ c) :
    maxKey s ≤ c := by
  cases s with
  | nil => exact absurd rfl hs
  | cons p rest =>
    obtain ⟨j, v⟩ := p
    refine foldl_max_le (h j ?_) (fun x hx => h x ?_)
    · exact List.mem_cons_self _ _
    · exact List.mem_cons_of_mem _ hx

theorem minKey_mem {s : Ser} (hs : s ≠ []) : minKey s ∈ keys s := by
  cases s with
  | nil => exact absurd rfl hs
  | cons p rest =>
    obtain ⟨j, v⟩ := p
    show (keys rest).foldl Nat.min j ∈ j :: keys rest
    rcases foldl_min_eq_or_mem (keys rest) j with h | h
    · rw [h]
      exact List.mem_cons_self _ _
    · exact List.mem_cons_of_mem _ h

theorem maxKey_mem {s : Ser} (hs : s ≠ []) : maxKey s ∈ keys s := by
  cases s with
  | nil => exact absurd rfl hs
  | cons p rest =>
    obtain ⟨j, v⟩ := p
    show (keys rest).foldl Nat.max j ∈ j :: keys rest
    rcases foldl_max_eq_or_mem (keys rest) j with h | h
    · rw [h]
      exact List.mem_cons_self _ _
    · exact List.mem_cons_of_mem _ h

theorem sliceSer_eq_self {s : Ser} {a b : Nat} (h : ∀ p ∈ s, a ≤ p.1 ∧ p.1 ≤ b) :
    sliceSer a b s = s := by
  rw [sliceSer, List.filter_eq_self]
  intro p hp
  have := h p hp
  simp [this.1, this.2]

theorem sliceSer_eq_nil {s : Ser} {a b : Nat} (h : ∀ p ∈ s, p.1 < a) :
    sliceSer a b s = [] := by
  rw [sliceSer, List.filter_eq_nil_iff]
  intro p hp
  have := h p hp
  simp only [Bool.and_eq_true, decide_eq_true_eq, not_and]
  omega

theorem sorted_keys_gt {s : Ser} {i : Nat} {v : Val} (hs : SortedSer ((i, v) :: s)) :
    ∀ x ∈ keys s, i < x := by
  intro x hx
  rcases mem_keys.1 hx with ⟨w, hw⟩
  exact (List.pairwise_cons.1 hs).1 _ (List.mem_map.2 ⟨(x, w), hw, rfl⟩)

theorem sorted_tail {s : Ser} {p : Nat × Val} (hs : SortedSer (p :: s)) : SortedSer s :=
  (List.pairwise_cons.1 hs).2

theorem ser_ext {s : Ser} : ∀ {t : Ser}, SortedSer s → SortedSer t →
    (∀ i, slookup s i = slookup t i) → s = t := by
  induction s with
  | nil =>
    intro t _ _ h
    cases t with
    | nil => rfl
    | cons q t' =>
      obtain ⟨j, w⟩ := q
      have := h j
      simp [slookup] at this
  | cons p s' ih =>
    intro t hs ht h
    obtain ⟨i, v⟩ := p
    have hlget : slookup t i = some v := by
      rw [← h i]
      simp [slookup]
    cases t with
    | nil => simp [slookup] at hlget
    | cons q t' =>
      obtain ⟨j, w⟩ := q
      have hij : i = j := by
        by_contra hne
        rcases Nat.lt_or_ge i j with hlt | hge
        · have hiout : i ∉ keys ((j, w) :: t') := by
            intro hmem
            rcases List.mem_cons.1 (show i ∈ j :: keys t' from hmem) with rfl | hmem'
            · omega
            · have := sorted_keys_gt ht i hmem'
              omega
          rw [slookup_eq_none.2 hiout] at hlget
          exact Option.noConfusion hlget
        · have hji : j < i := by omega
          have hjt : slookup ((j, w) :: t') j = some w := by simp [slookup]
          have hjs := (h j).trans hjt
          have hmem := mem_of_slookup hjs
          rcases List.mem_cons.1 hmem with heq | hmem'
          · rw [Prod.mk.injEq] at heq
            omega
          · have := sorted_keys_gt hs j (mem_keys.2 ⟨w, hmem'⟩)
            omega
      subst hij
      have hvw : w = v := by
        have hjw : slookup ((i, w) :: t') i = some w := by simp [slookup]
        rw [hjw] at hlget
        exact Option.some.inj hlget
      subst hvw
      have htail : s' = t' := by
        refine ih (sorted_tail hs) (sorted_tail ht) (fun k => ?_)
        by_cases hk : k = i
        · subst hk
          rw [slookup_eq_none.2 (fun hm => absurd (sorted_keys_gt hs k hm) (by omega)),
              slookup_eq_none.2 (fun hm => absurd (sorted_keys_gt ht k hm) (by omega))]
        · have := h k
          simpa [slookup, hk] using this
      rw [htail]

end Ser

namespace SeriesServices

theorem mem_dropNulls {s : Ser} {i : Nat} {v : Val} :
    (i, v) ∈ dropNulls s ↔ (i, v) ∈ s ∧ isNullV v = false := by
  simp [dropNulls, List.mem_filter]

theorem contains_keys {l : List Nat} {i : Nat} : l.contains i = true ↔ i ∈ l := by
  simp

theorem slookup_unique {s : Ser} (hs : NodupKeys s) {i : Nat} {v w : Val}
    (h1 : (i, v) ∈ s) (h2 : (i, w) ∈ s) : v = w := by
  have e1 := slookup_of_mem hs h1
  have e2 := slookup_of_mem hs h2
  rw [e1] at e2
  exact Option.some.inj e2

theorem maskEqual_self {v : Val} (h : isNullV v = false) : maskEqual v v = true := by
  cases v with
  | F a =>
    have hz : a - a = 0 := by ring
    simp only [maskEqual, eqclose, hz, Bool.or_eq_true, decide_eq_true_eq]
    left
    rw [rabs]
    norm_num [prec]
  | S s => simp [maskEqual, eqclose]
  | N => simp [isNullV] at h

theorem diff_of_dropNulls_eq_nil {b y : Ser} (h : dropNulls b = []) :
    diff (some b) y = y := by
  simp [diff, h]

theorem diff_none {y : Ser} : diff none y = y := rfl

theorem slookup_diff {b y : Ser} (hb : NodupKeys b) (hy : NodupKeys y)
    (hne : dropNulls b ≠ []) (i : Nat) :
    slookup (diff (some b) y) i =
      (slookup y i).bind (fun v =>
        if i ∈ keys (dropNulls b) then
          (if maskEqual ((slookup (dropNulls b) i).getD .N) v then none else some v)
        else (if isNullV v then none else some v)) := by
  have hempty : (dropNulls b).isEmpty = false := by
    cases hdb : dropNulls b with
    | nil => exact absurd hdb hne
    | cons p rest => simp
  have hb' : NodupKeys (dropNulls b) := nodupKeys_filter hb _
  rw [show diff (some b) y =
      ((y.filter (fun p => (keys (dropNulls b)).contains p.1)).filter
        (fun p => !maskEqual ((slookup (dropNulls b) p.1).getD .N) p.2)) ++
      ((y.filter (fun p => !(keys (dropNulls b)).contains p.1)).filter
        (fun p => !isNullV p.2)) from by simp [diff, hempty]]
  rw [slookup_append,
      slookup_filter (nodupKeys_filter hy _) _ i,
      slookup_filter hy _ i,
      slookup_filter (nodupKeys_filter hy _) _ i,
      slookup_filter hy _ i]
  rcases hv : slookup y i with _ | v
  · simp
  · by_cases hmem : i ∈ keys (dropNulls b)
    · have hc : (keys (dropNulls b)).contains i = true := contains_keys.2 hmem
      by_cases hmask : maskEqual ((slookup (dropNulls b) i).getD .N) v = true
      · simp [hc, hmem, hmask, Option.orElse]
      · simp only [Bool.not_eq_true] at hmask
        simp [hc, hmem, hmask, Option.orElse]
    · have hc : (keys (dropNulls b)).contains i = false := by
        rw [← Bool.not_eq_true]
        intro hcc
        exact hmem (contains_keys.1 hcc)
      by_cases hnull : isNullV v = true
      · simp [hc, hmem, hnull, Option.orElse]
      · simp only [Bool.not_eq_true] at hnull
        simp [hc, hmem, hnull, Option.orElse]

theorem nodupKeys_diff {b : Option Ser} {y : Ser} (hy : NodupKeys y) :
    NodupKeys (diff b y) := by
  cases b with
  | none => exact hy
  | some b =>
    cases hdb : (dropNulls b).isEmpty with
    | true => simpa [diff, hdb] using hy
    | false =>
      rw [show diff (some b) y =
          ((y.filter (fun p => (keys (dropNulls b)).contains p.1)).filter
            (fun p => !maskEqual ((slookup (dropNulls b) p.1).getD .N) p.2)) ++
          ((y.filter (fun p => !(keys (dropNulls b)).contains p.1)).filter
            (fun p => !isNullV p.2)) from by simp [diff, hdb]]
      rw [NodupKeys, keys, List.map_append]
      rw [List.nodup_append]
      refine ⟨(keys_sublist_of_filter.trans keys_sublist_of_filter).nodup hy,
              (keys_sublist_of_filter.trans keys_sublist_of_filter).nodup hy, ?_⟩
      intro x hxA hxB
      rcases mem_keys_filter.1 hxA with ⟨v, hv1, _⟩
      rcases mem_keys_filter.1 hxB with ⟨w, hw1, _⟩
      rcases List.mem_filter.1 hv1 with ⟨_, hv3⟩
      rcases List.mem_filter.1 hw1 with ⟨_, hw3⟩
      rw [hv3] at hw3
      simp at hw3

theorem mem_diff_subset {b : Option Ser} {y : Ser} {p : Nat × Val}
    (h : p ∈ diff b y) : p ∈ y := by
  cases b with
  | none => exact h
  | some b =>
    cases hdb : (dropNulls b).isEmpty with
    | true => simpa [diff, hdb] using h
    | false =>
      rw [show diff (some b) y =
          ((y.filter (fun p => (keys (dropNulls b)).contains p.1)).filter
            (fun p => !maskEqual ((slookup (dropNulls b) p.1).getD .N) p.2)) ++
          ((y.filter (fun p => !(keys (dropNulls b)).contains p.1)).filter
            (fun p => !isNullV p.2)) from by simp [diff, hdb]] at h
      rcases List.mem_append.1 h with h | h
      · exact (List.mem_filter.1 (List.mem_filter.1 h).1).1
      · exact (List.mem_filter.1 (List.mem_filter.1 h).1).1

theorem diff_self {x : Ser} (hx : NodupKeys x) (hne : dropNulls x ≠ []) :
    diff (some x) x = [] := by
  have hempty : (dropNulls x).isEmpty = false := by
    cases hdb : dropNulls x with
    | nil => exact absurd hdb hne
    | cons p rest => simp
  rw [show diff (some x) x =
      ((x.filter (fun p => (keys (dropNulls x)).contains p.1)).filter
        (fun p => !maskEqual ((slookup (dropNulls x) p.1).getD .N) p.2)) ++
      ((x.filter (fun p => !(keys (dropNulls x)).contains p.1)).filter
        (fun p => !isNullV p.2)) from by simp [diff, hempty]]
  rw [List.append_eq_nil]
  constructor
  · rw [List.filter_eq_nil_iff]
    rintro ⟨i, v⟩ hp
    rcases List.mem_filter.1 hp with ⟨hmem, hcont⟩
    rcases mem_keys.1 (contains_keys.1 hcont) with ⟨w, hw⟩
    have hwx := (mem_dropNulls.1 hw).1
    have hwnn := (mem_dropNulls.1 hw).2
    have hvw : v = w := slookup_unique hx hmem hwx
    subst hvw
    have hl : slookup (dropNulls x) i = some v := slookup_of_mem (nodupKeys_filter hx _) hw
    simp [hl, maskEqual_self hwnn]
  · rw [List.filter_eq_nil_iff]
    rintro ⟨i, v⟩ hp
    rcases List.mem_filter.1 hp with ⟨hmem, hcont⟩
    by_cases hnull : isNullV v = true
    · simp [hnull]
    · exfalso
      simp only [Bool.not_eq_true] at hnull
      have : (i, v) ∈ dropNulls x := mem_dropNulls.2 ⟨hmem, hnull⟩
      have : i ∈ keys (dropNulls x) := mem_keys.2 ⟨v, this⟩
      rw [← contains_keys] at this
      rw [this] at hcont
      simp at hcont

end SeriesServices

namespace SeriesServices

/-- Value equality as the specification words it: floats compare with
absolute tolerance `1e-14`, strings compare exactly, two nulls count as
equal, and nothing else is equal. -/
def specValueEq (b v : Val) : Prop :=
  (∃ a c, b = Val.F a ∧ v = Val.F c ∧ rabs (a - c) ≤ prec) ∨
  (∃ s, b = Val.S s ∧ v = Val.S s) ∨ (b = Val.N ∧ v = Val.N)

/-- `p.2` is a float or a null: the entry can belong to a float64 series. -/
def isFloatOrNull : Val → Bool
  | .S _ => false
  | _ => true

/-- `p.2` is a string or a null: the entry can belong to an object series. -/
def isStrOrNull : Val → Bool
  | .F _ => false
  | _ => true

/-- All values of the series are floats or nulls (a float64 series). -/
def typedFloat (s : Ser) : Prop := ∀ p ∈ s, isFloatOrNull p.2 = true

/-- All values of the series are strings or nulls (an object series). -/
def typedStr (s : Ser) : Prop := ∀ p ∈ s, isStrOrNull p.2 = true

instance : DecidablePred typedFloat := fun s => by
  unfold typedFloat; infer_instance

instance : DecidablePred typedStr := fun s => by
  unfold typedStr; infer_instance

theorem maskEqual_iff_specValueEq {b v : Val} :
    maskEqual b v = true ↔ specValueEq b v := by
  cases b <;> cases v <;>
    simp [maskEqual, eqclose, isNullV, specValueEq, eq_comm]

theorem mem_keys_dropNulls {x : Ser} (hx : NodupKeys x) {i : Nat} :
    i ∈ keys (dropNulls x) ↔ ∃ w, slookup x i = some w ∧ isNullV w = false := by
  constructor
  · intro h
    rcases mem_keys.1 h with ⟨w, hw⟩
    exact ⟨w, slookup_of_mem hx (mem_dropNulls.1 hw).1, (mem_dropNulls.1 hw).2⟩
  · rintro ⟨w, hw1, hw2⟩
    exact mem_keys.2 ⟨w, mem_dropNulls.2 ⟨mem_of_slookup hw1, hw2⟩⟩

theorem slookup_dropNulls_mem {x : Ser} (hx : NodupKeys x) {i : Nat}
    (h : i ∈ keys (dropNulls x)) :
    ∃ w, slookup (dropNulls x) i = some w ∧ slookup x i = some w ∧ isNullV w = false := by
  rcases mem_keys.1 h with ⟨w, hw⟩
  refine ⟨w, slookup_of_mem (nodupKeys_filter hx _) hw,
          slookup_of_mem hx (mem_dropNulls.1 hw).1, (mem_dropNulls.1 hw).2⟩

theorem maskEqual_nonnull_cases {b v : Val} (hb : isNullV b = false)
    (h : maskEqual b v = true) :
    (∃ a c, b = Val.F a ∧ v = Val.F c ∧ rabs (a - c) ≤ prec) ∨
    (∃ s, b = Val.S s ∧ v = Val.S s) := by
  rcases maskEqual_iff_specValueEq.1 h with h | h | h
  · exact Or.inl h
  · exact Or.inr h
  · rw [h.1] at hb
    simp [isNullV] at hb

end SeriesServices

/-- Claim C3 (corrected): if the base argument of `diff` is absent
(`None`) or contains no non-null point, then `diff(base, other)` returns
`other` unchanged — null entries of `other` included (the code performs
no null-stripping on this early-return path). -/
theorem claim_C3 (b : Option Ser) (y : Ser)
    (h : b = none ∨ ∃ s, b = some s ∧ dropNulls s = []) :
    SeriesServices.diff b y = y := by
  rcases h with rfl | ⟨s, rfl, hs⟩
  · exact SeriesServices.diff_none
  · exact SeriesServices.diff_of_dropNulls_eq_nil hs

/-- Claim C3, counterexample to the claim as stated: with an absent
base (and likewise with an all-null base) and an `other` carrying a null
entry, `diff` keeps the null entry, so it differs from `other` with
nulls removed. -/
theorem claim_C3_counterexample :
    SeriesServices.diff none [((0 : Nat), Val.N)] ≠ dropNulls [((0 : Nat), Val.N)] ∧
    SeriesServices.diff (some [((0 : Nat), Val.N)]) [((1 : Nat), Val.N)] ≠
      dropNulls [((1 : Nat), Val.N)] := by
  decide

/-- Claim C3, witness: the amended theorem applied to a concrete
all-null base. -/
theorem claim_C3_witness :
    SeriesServices.diff (some [((0 : Nat), Val.N)]) [(1, Val.S [65]), (2, Val.N)] =
      [(1, Val.S [65]), (2, Val.N)] :=
  claim_C3 (some [((0 : Nat), Val.N)]) [(1, Val.S [65]), (2, Val.N)]
    (Or.inr ⟨[((0 : Nat), Val.N)], rfl, by decide⟩)

/-- Claim C4 (corrected): for a base with at least one non-null point
and a candidate with no duplicate indexes, an entry of `other` at an
index of `base` is kept in the diff iff its value differs from the base
value there (floats with absolute tolerance `1e-14`, strings and nulls
exactly, two nulls equal), and an entry at a fresh index is kept iff it
is non-null.  (As stated, over every non-empty base, the claim fails:
an all-null base makes `diff` return `other` verbatim.) -/
theorem claim_C4 (x y : Ser) (hx : NodupKeys x) (hy : NodupKeys y)
    (hne : dropNulls x ≠ []) (i : Nat) (v : Val) :
    (i, v) ∈ SeriesServices.diff (some x) y ↔
      ((i, v) ∈ y ∧
        (if i ∈ keys x then
          ¬ SeriesServices.specValueEq ((slookup x i).getD .N) v
         else isNullV v = false)) := by
  have hd := SeriesServices.slookup_diff hx hy hne i
  have hmemd : (i, v) ∈ SeriesServices.diff (some x) y ↔
      slookup (SeriesServices.diff (some x) y) i = some v := by
    constructor
    · exact slookup_of_mem (SeriesServices.nodupKeys_diff hy)
    · exact mem_of_slookup
  have hmemy : (i, v) ∈ y ↔ slookup y i = some v := by
    constructor
    · exact slookup_of_mem hy
    · exact mem_of_slookup
  rw [hmemd, hd, hmemy]
  rcases hyv : slookup y i with _ | w
  · simp
  · simp only [Option.some_bind]
    by_cases hmem : i ∈ keys (dropNulls x)
    · rcases SeriesServices.slookup_dropNulls_mem hx hmem with ⟨bv, hb1, hb2, hb3⟩
      have hkx : i ∈ keys x := mem_keys.2 ⟨bv, mem_of_slookup hb2⟩
      rw [if_pos hmem, if_pos hkx, hb1, hb2]
      simp only [Option.getD_some]
      by_cases hmask : SeriesServices.maskEqual bv w = true
      · rw [if_pos hmask]
        constructor
        · intro h
          exact absurd h (by simp)
        · rintro ⟨hw, hns⟩
          have hwv := Option.some.inj hw
          subst hwv
          exact absurd (SeriesServices.maskEqual_iff_specValueEq.1 hmask) hns
      · rw [if_neg hmask]
        constructor
        · intro hw
          have hwv := Option.some.inj hw
          subst hwv
          exact ⟨rfl, fun hs => hmask (SeriesServices.maskEqual_iff_specValueEq.2 hs)⟩
        · exact fun h => h.1
    · rw [if_neg hmem]
      by_cases hkx : i ∈ keys x
      · -- the base value at i exists but is null
        rcases mem_keys.1 hkx with ⟨bv, hbv⟩
        have hlx : slookup x i = some bv := slookup_of_mem hx hbv
        have hbnull : isNullV bv = true := by
          by_contra hno
          rw [Bool.not_eq_true] at hno
          exact hmem (SeriesServices.mem_keys_dropNulls hx |>.2 ⟨bv, hlx, hno⟩)
        have hbv_is_N : bv = Val.N := by
          cases bv <;> simp [isNullV] at hbnull ⊢
        subst hbv_is_N
        rw [if_pos hkx, hlx]
        simp only [Option.getD_some]
        by_cases hnull : isNullV w = true
        · rw [if_pos hnull]
          have hw_is_N : w = Val.N := by
            cases w <;> simp [isNullV] at hnull ⊢
          subst hw_is_N
          constructor
          · intro h
            exact absurd h (by simp)
          · rintro ⟨hw, hns⟩
            have hwv := Option.some.inj hw
            subst hwv
            exact absurd (Or.inr (Or.inr ⟨rfl, rfl⟩)) hns
        · rw [if_neg hnull]
          rw [Bool.not_eq_true] at hnull
          constructor
          · intro hw
            have hwv := Option.some.inj hw
            subst hwv
            refine ⟨rfl, fun hs => ?_⟩
            rcases hs with ⟨a, c, ha, _, _⟩ | ⟨str, hsx, _⟩ | ⟨_, hN⟩
            · exact Val.noConfusion ha
            · exact Val.noConfusion hsx
            · rw [hN] at hnull
              simp [isNullV] at hnull
          · exact fun h => h.1
      · rw [if_neg hkx]
        by_cases hnull : isNullV w = true
        · rw [if_pos hnull]
          constructor
          · intro h
            exact absurd h (by simp)
          · rintro ⟨hw, hvnn⟩
            have hwv := Option.some.inj hw
            subst hwv
            rw [hnull] at hvnn
            exact Bool.noConfusion hvnn
        · rw [if_neg hnull]
          rw [Bool.not_eq_true] at hnull
          constructor
          · intro hw
            have hwv := Option.some.inj hw
            subst hwv
            exact ⟨rfl, hnull⟩
          · exact fun h => h.1

/-- Claim C4, counterexample to the claim as stated: with the non-empty
but all-null base `[(0, null)]`, the null entry of `other` at the fresh
index 1 is kept by `diff` although the claim requires fresh null
entries to be dropped. -/
theorem claim_C4_counterexample :
    (1, Val.N) ∈ SeriesServices.diff (some [((0 : Nat), Val.N)]) [((1 : Nat), Val.N)] ∧
    (1 : Nat) ∉ keys [((0 : Nat), Val.N)] ∧ isNullV Val.N = true := by
  decide

/-- Claim C4, witness: the amended theorem applied to a concrete base
and candidate, at the fresh null entry (which the diff drops). -/
theorem claim_C4_witness :
    ((1, Val.N) ∈ SeriesServices.diff (some [((0 : Nat), Val.S [65])])
        [((0 : Nat), Val.S [65]), (1, Val.N)] ↔
      ((1, Val.N) ∈ [((0 : Nat), Val.S [65]), (1, Val.N)] ∧
        (if (1 : Nat) ∈ keys [((0 : Nat), Val.S [65])] then
          ¬ SeriesServices.specValueEq ((slookup [((0 : Nat), Val.S [65])] 1).getD .N) Val.N
         else isNullV Val.N = false))) :=
  claim_C4 [((0 : Nat), Val.S [65])] [((0 : Nat), Val.S [65]), (1, Val.N)]
    (by decide) (by decide) (by decide) 1 Val.N

/-- Claim C1 (corrected): for series of one common value type, with no
duplicate index, and provided every non-null point of `x` has its date
in `y`'s index (the round trip forgets none of `x`'s points otherwise),
`patch(x, diff(x, y))` equals `y` up to null-stripping and up to the
float tolerance: at every date both sides agree, except that a float
entry of `y` within `1e-14` of `x`'s value may keep `x`'s value. -/
theorem claim_C1 (x y : Ser) (hx : NodupKeys x) (hy : NodupKeys y)
    (_hty : (SeriesServices.typedFloat x ∧ SeriesServices.typedFloat y) ∨
           (SeriesServices.typedStr x ∧ SeriesServices.typedStr y))
    (hcov : ∀ i ∈ keys (dropNulls x), i ∈ keys y) (i : Nat) :
    slookup (dropNulls (SeriesServices.patch x (SeriesServices.diff (some x) y))) i =
      slookup (dropNulls y) i ∨
    (∃ a c,
      slookup (dropNulls (SeriesServices.patch x (SeriesServices.diff (some x) y))) i =
        some (Val.F a) ∧
      slookup (dropNulls y) i = some (Val.F c) ∧
      slookup x i = some (Val.F a) ∧ rabs (a - c) ≤ SeriesServices.prec) := by
  have hP : NodupKeys (SeriesServices.patch x (SeriesServices.diff (some x) y)) :=
    sortedSer_nodup SeriesServices.sorted_patch
  have hPd := slookup_dropNulls hP i
  have hpatch := @SeriesServices.slookup_patch x (SeriesServices.diff (some x) y) i
  have hY := slookup_dropNulls hy i
  by_cases hb : dropNulls x = []
  · -- the base has no non-null point: the diff is y itself
    rw [SeriesServices.diff_of_dropNulls_eq_nil hb] at hPd hpatch ⊢
    rcases hyv : slookup y i with _ | v
    · rcases hxv : slookup x i with _ | w
      · left
        rw [hPd, hpatch, hyv, hxv, hY, hyv]
        simp [Option.orElse]
      · have hwnull : isNullV w = true := by
          by_contra hno
          rw [Bool.not_eq_true] at hno
          have : (i, w) ∈ dropNulls x :=
            SeriesServices.mem_dropNulls.2 ⟨mem_of_slookup hxv, hno⟩
          rw [hb] at this
          simp at this
        left
        rw [hPd, hpatch, hyv, hxv, hY, hyv]
        simp [Option.orElse, hwnull]
    · left
      rw [hPd, hpatch, hyv, hY, hyv]
      simp [Option.orElse]
  · have hdiff := SeriesServices.slookup_diff hx hy hb i
    rcases hyv : slookup y i with _ | v
    · -- y not defined at i: neither may the stripped patch be
      have hdnone : slookup (SeriesServices.diff (some x) y) i = none := by
        rw [hdiff, hyv]
        rfl
      rcases hxv : slookup x i with _ | w
      · left
        rw [hPd, hpatch, hdnone, hxv, hY, hyv]
        simp [Option.orElse]
      · have hwnull : isNullV w = true := by
          by_contra hno
          rw [Bool.not_eq_true] at hno
          have hmem : i ∈ keys (dropNulls x) :=
            (SeriesServices.mem_keys_dropNulls hx).2 ⟨w, hxv, hno⟩
          have := hcov i hmem
          rw [← slookup_isSome, hyv] at this
          simp at this
        left
        rw [hPd, hpatch, hdnone, hxv, hY, hyv]
        simp [Option.orElse, hwnull]
    · by_cases hmem : i ∈ keys (dropNulls x)
      · rcases SeriesServices.slookup_dropNulls_mem hx hmem with ⟨bv, hb1, hb2, hb3⟩
        by_cases hmask : SeriesServices.maskEqual bv v = true
        · -- values compare equal: the patch keeps the base value
          have hdnone : slookup (SeriesServices.diff (some x) y) i = none := by
            rw [hdiff, hyv]
            simp [hmem, hb1, hmask]
          rcases SeriesServices.maskEqual_nonnull_cases hb3 hmask with
            ⟨a, c, rfl, rfl, hac⟩ | ⟨str, rfl, rfl⟩
          · right
            refine ⟨a, c, ?_, ?_, hb2, hac⟩
            · rw [hPd, hpatch, hdnone, hb2]
              simp [Option.orElse, isNullV]
            · rw [hY, hyv]
              simp [isNullV]
          · left
            rw [hPd, hpatch, hdnone, hb2, hY, hyv]
            simp [Option.orElse, isNullV]
        · -- values differ: the diff carries y's value
          have hdsome : slookup (SeriesServices.diff (some x) y) i = some v := by
            rw [hdiff, hyv]
            simp [hmem, hb1, hmask]
          left
          rw [hPd, hpatch, hdsome, hY, hyv]
          simp [Option.orElse]
      · -- i is a fresh index for the (null-stripped) base
        by_cases hnull : isNullV v = true
        · have hdnone : slookup (SeriesServices.diff (some x) y) i = none := by
            rw [hdiff, hyv]
            simp [hmem, hnull]
          left
          rw [hPd, hpatch, hdnone, hY, hyv]
          rcases hxv : slookup x i with _ | w
          · simp [Option.orElse, hnull]
          · have hwnull : isNullV w = true := by
              by_contra hno
              rw [Bool.not_eq_true] at hno
              exact hmem ((SeriesServices.mem_keys_dropNulls hx).2 ⟨w, hxv, hno⟩)
            simp [Option.orElse, hnull, hwnull]
        · have hdsome : slookup (SeriesServices.diff (some x) y) i = some v := by
            rw [hdiff, hyv]
            simp [hmem, hnull]
          left
          rw [hPd, hpatch, hdsome, hY, hyv]
          simp [Option.orElse]

/-- Claim C1, counterexample to the claim as stated: with
`x = [(0, "A")]` and `y = [(1, "B")]`, the patched series keeps `x`'s
point at date 0, which null-stripping does not remove and which the
float-tolerance allowance cannot excuse, so
`patch(x, diff(x, y))` differs from `y` at date 0. -/
theorem claim_C1_counterexample :
    slookup (dropNulls (SeriesServices.patch [((0 : Nat), Val.S [65])]
      (SeriesServices.diff (some [((0 : Nat), Val.S [65])]) [((1 : Nat), Val.S [66])]))) 0 =
      some (Val.S [65]) ∧
    slookup (dropNulls [((1 : Nat), Val.S [66])]) 0 = none := by
  decide

/-- Claim C1, witness: the amended theorem applied to a concrete pair
of string series whose non-null base dates are all revised by `y`. -/
theorem claim_C1_witness :
    slookup (dropNulls (SeriesServices.patch [((0 : Nat), Val.S [65])]
      (SeriesServices.diff (some [((0 : Nat), Val.S [65])])
        [((0 : Nat), Val.S [67]), (1, Val.N)]))) 0 =
      slookup (dropNulls [((0 : Nat), Val.S [67]), ((1 : Nat), Val.N)]) 0 ∨
    (∃ a c,
      slookup (dropNulls (SeriesServices.patch [((0 : Nat), Val.S [65])]
        (SeriesServices.diff (some [((0 : Nat), Val.S [65])])
          [((0 : Nat), Val.S [67]), (1, Val.N)]))) 0 = some (Val.F a) ∧
      slookup (dropNulls [((0 : Nat), Val.S [67]), ((1 : Nat), Val.N)]) 0 =
        some (Val.F c) ∧
      slookup [((0 : Nat), Val.S [65])] 0 = some (Val.F a) ∧
      rabs (a - c) ≤ SeriesServices.prec) :=
  claim_C1 [((0 : Nat), Val.S [65])] [((0 : Nat), Val.S [67]), (1, Val.N)]
    (by decide) (by decide) (Or.inr ⟨by decide, by decide⟩) (by decide) 0

/-- A row of the per-series chunk table `"ns.snapshot"."name"`:
`(id, cstart, cend, parent, chunk)`.  The chunk id is the row's position
in `Store.chunks`; `content` stands for the decoded chunk payload. -/
structure Chunk where
  parent : Option Nat
  cstart : Nat
  cend : Nat
  content : Ser
deriving DecidableEq, Repr

/-- The modelled database state for one series: the chunk table, the
revision rows of the `"ns.timeserie"` table (each row reduced to its
`snapshot` head id, in insertion order), and the changeset counter of
the `"ns".changeset` sequence. -/
structure Store where
  chunks : List Chunk
  heads : List Nat
  csetCount : Nat
deriving DecidableEq, Repr

namespace Snapshot

/-- `_max_bucket_size = 250`. -/
def maxBucketSize : Nat := 250

/-- The `for start in range(0, len(ts), _max_bucket_size)` loop of
`Snapshot.buckets`. -/
def chunksOf (ts : Ser) : List Ser :=
  if h : ts = [] then []
  else ts.take maxBucketSize :: chunksOf (ts.drop maxBucketSize)
termination_by ts.length
decreasing_by
  simp only [List.length_drop, maxBucketSize]
  have : 0 < ts.length := List.length_pos.2 h
  omega

/-- `Snapshot.buckets`: a series shorter than `_max_bucket_size` stays
whole, otherwise it is cut into positional slices of
`_max_bucket_size`. -/
def buckets (ts : Ser) : List Ser :=
  if ts.length < maxBucketSize then [ts] else chunksOf ts

/-- Row access in the chunk table (the dummy row is never reached on
valid ids). -/
def getChunk (chunks : List Chunk) (id : Nat) : Chunk :=
  chunks.getD id ⟨none, 0, 0, []⟩

/-- The rows `Snapshot.insert_buckets` appends: one chunk per bucket,
each chunk's parent the previously inserted id, together with the last
inserted id (the initial `parent` when there is no bucket). -/
def mkChunks (nextId : Nat) (parent : Option Nat) : List Ser → List Chunk × Option Nat
  | [] => ([], parent)
  | b :: rest =>
    let c : Chunk := ⟨parent, minKey b, maxKey b, b⟩
    let (cs, last) := mkChunks (nextId + 1) (some nextId) rest
    (c :: cs, last)

/-- `Snapshot.insert_buckets(parent, ts)`: append one chunk per bucket
of `ts` to the table and return the new table and the last inserted
id. -/
def insert_buckets (chunks : List Chunk) (parent : Option Nat) (ts : Ser) :
    List Chunk × Option Nat :=
  let r := mkChunks chunks.length parent (buckets ts)
  (chunks ++ r.1, r.2)

/-- The recursive CTE of `Snapshot.rawsql`, newest chunk first: start
at `id`, follow `parent`, and when a start bound `ds` is given stop
before any parent chunk with `cend < ds` (the anchor row itself is
never filtered).  The fuel only bounds the recursion; `id + 1` suffices
whenever parents have smaller ids. -/
def chainIds (chunks : List Chunk) (ds : Option Nat) : Nat → Nat → List Nat
  | 0, id => [id]
  | fuel + 1, id =>
    id :: (match (getChunk chunks id).parent with
           | none => []
           | some p =>
             match ds with
             | none => chainIds chunks ds fuel p
             | some d0 =>
               if d0 ≤ (getChunk chunks p).cend then chainIds chunks ds fuel p else [])

/-- `Snapshot.rawchunks(head, from_value_date)`: the fetched chunk ids,
oldest first (`chunks.reverse()`). -/
def rawchunkIds (chunks : List Chunk) (head : Nat) (ds : Option Nat) : List Nat :=
  (chainIds chunks ds (head + 1) head).reverse

/-- `Snapshot._chunks_to_ts`: concatenate the decoded chunk contents,
oldest first. -/
def chunksToSer (chunks : List Chunk) (ids : List Nat) : Ser :=
  (ids.map (fun i => (getChunk chunks i).content)).flatten

/-- The head of the series: `select snapshot ... order by id desc
limit 1`. -/
def headId (s : Store) : Nat := s.heads.getLast?.getD 0

/-- `Snapshot.last()`: the full series at the latest revision. -/
def snapLast (s : Store) : Ser :=
  chunksToSer s.chunks (rawchunkIds s.chunks (headId s) none)

/-- `Snapshot.last(a, b)`: reconstruct from the chunks whose `cend`
reaches `a`, then slice to `[a, b]` (`.loc[from:to]`). -/
def snapLastRange (s : Store) (a b : Nat) : Ser :=
  sliceSer a b (chunksToSer s.chunks (rawchunkIds s.chunks (headId s) (some a)))

/-- `Snapshot.update(diff)`, line by line: fetch the raw chunks from
the head down to the diff start, rebuild the tail snapshot, then either
append the diff's buckets directly under the head (when the diff starts
strictly after the tail's last date) or patch the tail and chain the
patched buckets under the deepest fetched chunk's parent.  Returns the
new chunk table and the new head id. -/
def update (s : Store) (d : Ser) : List Chunk × Nat :=
  let head := headId s
  let ds := minKey d
  let fetched := rawchunkIds s.chunks head (some ds)
  let cid := fetched.headD 0
  let parent := (getChunk s.chunks cid).parent
  let oldsnapshot := chunksToSer s.chunks fetched
  let pn :=
    if maxKey oldsnapshot < ds then (some cid, d)
    else (parent, SeriesServices.patch oldsnapshot d)
  let r := insert_buckets s.chunks pn.1 pn.2
  (r.1, r.2.getD 0)

end Snapshot

/-- Outcome of one `insert` on an existing series. -/
inductive InsertResult : Type
  | nochange
  | erasureError
  | inserted (d : Ser)
deriving DecidableEq, Repr

namespace timeseries

/-- `timeseries._create` (netted down to the modelled state): register
the series, allocate a changeset, bucket the initial series into a
fresh chunk table and record the returned head as the first revision
row. -/
def createSeries (ts : Ser) : Store :=
  let r := Snapshot.insert_buckets [] none ts
  { chunks := r.1, heads := [r.2.getD 0], csetCount := 1 }

/-- The diff `timeseries._update` computes:
`diff(snapshot.last(newts.index.min(), newts.index.max()), newts)`. -/
def insertDiff (s : Store) (newts : Ser) : Ser :=
  SeriesServices.diff (some (Snapshot.snapLastRange s (minKey newts) (maxKey newts))) newts

/-- `timeseries._update`, line by line: compute the diff against the
stored series restricted to the inserted range; an empty diff inserts
nothing; a diff whose (positionally) first or last value is null is
checked against full erasure, which raises; otherwise a changeset is
allocated, `Snapshot.update` writes the new chunks and a new revision
row records the new head. -/
def _update (s : Store) (newts : Ser) : Store × InsertResult :=
  let d := insertDiff s newts
  if hd : d = [] then (s, .nochange)
  else
    let proceed : Store × InsertResult :=
      let r := Snapshot.update s d
      ({ chunks := r.1, heads := s.heads ++ [r.2], csetCount := s.csetCount + 1 },
       .inserted d)
    if isNullV (d.head hd).2 || isNullV (d.getLast hd).2 then
      if dropNulls (SeriesServices.patch (Snapshot.snapLast s) d) = [] then
        (s, .erasureError)
      else proceed
    else proceed

end timeseries

/-- Every chunk row is well formed: a non-empty strictly increasing
content whose bounds are recorded in `cstart`/`cend`. -/
def ChunkOKb (c : Chunk) : Bool :=
  !c.content.isEmpty && decide (SortedSer c.content) &&
    (c.cstart == minKey c.content) && (c.cend == maxKey c.content)

/-- The chain is monotonic: a parent has a smaller id and ends strictly
before its child starts. -/
def ParentOKb (chunks : List Chunk) (i : Nat) : Bool :=
  match (Snapshot.getChunk chunks i).parent with
  | none => true
  | some p =>
    decide (p < i) &&
      decide ((Snapshot.getChunk chunks p).cend < (Snapshot.getChunk chunks i).cstart)

/-- Every row of the chunk table is well formed and every parent link
is monotonic. -/
def ChunksOK (chunks : List Chunk) : Prop :=
  ∀ i, i < chunks.length →
    ChunkOKb (Snapshot.getChunk chunks i) = true ∧ ParentOKb chunks i = true

instance : DecidablePred ChunksOK := fun chunks => by
  unfold ChunksOK; infer_instance

/-- The store invariant: every chunk row is well formed, every parent
link is monotonic, and every revision row points at an existing
chunk. -/
def StoreInv (s : Store) : Prop :=
  ChunksOK s.chunks ∧ (∀ h ∈ s.heads, h < s.chunks.length)

instance : DecidablePred StoreInv := fun s => by
  unfold StoreInv; infer_instance

namespace Snapshot

theorem chunksOf_flatten (ts : Ser) : (chunksOf ts).flatten = ts := by
  rw [chunksOf]
  split
  · rename_i h
    simp [h]
  · simp only [List.flatten_cons]
    rw [chunksOf_flatten (ts.drop maxBucketSize)]
    exact List.take_append_drop _ _
termination_by ts.length
decreasing_by
  rename_i h
  simp only [List.length_drop, maxBucketSize]
  have : 0 < ts.length := List.length_pos.2 h
  omega

theorem buckets_flatten (ts : Ser) : (buckets ts).flatten = ts := by
  rw [buckets]
  split
  · simp
  · exact chunksOf_flatten ts

theorem chunksOf_sizes : ∀ {ts b : Ser}, b ∈ chunksOf ts →
    b.length ≤ maxBucketSize ∧ b ≠ [] := by
  intro ts
  induction ts using Snapshot.chunksOf.induct with
  | case1 =>
    intro b h
    rw [chunksOf] at h
    simp at h
  | case2 ts hne ih =>
    intro b h
    rw [chunksOf, dif_neg hne] at h
    rcases List.mem_cons.1 h with rfl | h
    · constructor
      · simpa using List.length_take_le _ _
      · have hpos : 0 < ts.length := List.length_pos.2 hne
        have hlen : (ts.take maxBucketSize).length = min maxBucketSize ts.length :=
          List.length_take _ _
        intro hnil
        rw [hnil] at hlen
        simp only [List.length_nil] at hlen
        have : 0 < maxBucketSize := by simp [maxBucketSize]
        omega
    · exact ih h

theorem buckets_sizes {ts : Ser} {b : Ser} (hts : ts ≠ []) (h : b ∈ buckets ts) :
    b.length ≤ maxBucketSize ∧ b ≠ [] := by
  rw [buckets] at h
  split at h
  · rcases List.mem_singleton.1 h with rfl
    rename_i hlt
    exact ⟨Nat.le_of_lt hlt, hts⟩
  · exact chunksOf_sizes h

theorem buckets_ne_nil (ts : Ser) : buckets ts ≠ [] := by
  rw [buckets]
  split
  · simp
  · rename_i hge
    rw [chunksOf]
    split
    · rename_i hnil
      rw [hnil] at hge
      simp [maxBucketSize] at hge
    · simp

end Snapshot

/-- The bucket list of a sorted non-empty series: every bucket is a
non-empty sorted slice, and consecutive buckets have strictly
increasing date ranges. -/
def BucketsOK : List Ser → Prop
  | [] => True
  | [b] => b ≠ [] ∧ SortedSer b
  | b :: b2 :: rest => (b ≠ [] ∧ SortedSer b) ∧ maxKey b < minKey b2 ∧ BucketsOK (b2 :: rest)

theorem keys_append {a b : Ser} : keys (a ++ b) = keys a ++ keys b :=
  List.map_append _ _ _

theorem sortedSer_append {a b : Ser} :
    SortedSer (a ++ b) ↔ SortedSer a ∧ SortedSer b ∧
      (∀ i ∈ keys a, ∀ j ∈ keys b, i < j) := by
  rw [SortedSer, keys_append, List.pairwise_append]
  exact Iff.rfl

theorem bucketsOK_of_flatten : ∀ {bs : List Ser}, SortedSer bs.flatten →
    (∀ b ∈ bs, b ≠ []) → BucketsOK bs := by
  intro bs
  induction bs with
  | nil => intro _ _; trivial
  | cons b rest ih =>
    intro hsort hne
    cases rest with
    | nil =>
      exact ⟨hne b (by simp), by simpa using hsort⟩
    | cons b2 rest2 =>
      rw [show (b :: b2 :: rest2).flatten = b ++ (b2 :: rest2).flatten from rfl] at hsort
      rcases sortedSer_append.1 hsort with ⟨hb, hrest, hcross⟩
      refine ⟨⟨hne b (by simp), hb⟩, ?_, ih hrest (fun x hx => hne x (by simp [hx]))⟩
      have hbne : b ≠ [] := hne b (by simp)
      have hb2ne : b2 ≠ [] := hne b2 (by simp)
      have h1 : maxKey b ∈ keys b := maxKey_mem hbne
      have h2 : minKey b2 ∈ keys b2 := minKey_mem hb2ne
      have h2' : minKey b2 ∈ keys (b2 :: rest2).flatten := by
        rw [show (b2 :: rest2).flatten = b2 ++ rest2.flatten from rfl, keys_append]
        exact List.mem_append.2 (Or.inl h2)
      exact hcross _ h1 _ h2'

theorem bucketsOK_buckets {ts : Ser} (hts : ts ≠ []) (hsort : SortedSer ts) :
    BucketsOK (Snapshot.buckets ts) :=
  bucketsOK_of_flatten (by rwa [Snapshot.buckets_flatten])
    (fun b hb => (Snapshot.buckets_sizes hts hb).2)

namespace Snapshot

theorem getChunk_append_left {chunks new : List Chunk} {i : Nat} (h : i < chunks.length) :
    getChunk (chunks ++ new) i = getChunk chunks i := by
  rw [getChunk, getChunk, List.getD_append _ _ _ _ h]

theorem chunkOKb_elim {c : Chunk} (h : ChunkOKb c = true) :
    c.content ≠ [] ∧ SortedSer c.content ∧ c.cstart = minKey c.content ∧
      c.cend = maxKey c.content := by
  simp only [ChunkOKb, Bool.and_eq_true, Bool.not_eq_true', List.isEmpty_eq_false,
    decide_eq_true_eq, beq_iff_eq] at h
  exact ⟨h.1.1.1, h.1.1.2, h.1.2, h.2⟩

theorem chunkOKb_intro {c : Chunk} (h1 : c.content ≠ []) (h2 : SortedSer c.content)
    (h3 : c.cstart = minKey c.content) (h4 : c.cend = maxKey c.content) :
    ChunkOKb c = true := by
  simp only [ChunkOKb, Bool.and_eq_true, Bool.not_eq_true', List.isEmpty_eq_false,
    decide_eq_true_eq, beq_iff_eq]
  exact ⟨⟨⟨h1, h2⟩, h3⟩, h4⟩

theorem parentOKb_elim {chunks : List Chunk} {i p : Nat}
    (h : ParentOKb chunks i = true) (hp : (getChunk chunks i).parent = some p) :
    p < i ∧ (getChunk chunks p).cend < (getChunk chunks i).cstart := by
  rw [ParentOKb, hp] at h
  simp only [Bool.and_eq_true, decide_eq_true_eq] at h
  exact h

theorem chunk_cstart_le_cend {c : Chunk} (h : ChunkOKb c = true) : c.cstart ≤ c.cend := by
  rcases chunkOKb_elim h with ⟨hne, _, h3, h4⟩
  rw [h3, h4]
  exact (minKey_le_of_mem (maxKey_mem hne)).trans (Nat.le_refl _)

theorem parentOKb_append {chunks new : List Chunk} {i : Nat}
    (hck : ChunksOK chunks) (h : i < chunks.length) :
    ParentOKb (chunks ++ new) i = true := by
  have hold := (hck i h).2
  rw [ParentOKb, getChunk_append_left h]
  cases hp : (getChunk chunks i).parent with
  | none => rfl
  | some p =>
    rcases parentOKb_elim hold hp with ⟨h1, h2⟩
    have hpn := @getChunk_append_left chunks new _ (Nat.lt_trans h1 h)
    simp [hpn, h1, h2]

/-- Preconditions on the initial parent passed to `insert_buckets`: it
must be an existing chunk ending strictly before the first bucket. -/
def ParentFits (chunks : List Chunk) (parent : Option Nat) (bs : List Ser) : Prop :=
  match parent with
  | none => True
  | some p => p < chunks.length ∧
      ∀ b0 rest, bs = b0 :: rest → (getChunk chunks p).cend < minKey b0

theorem mkChunks_length {bs : List Ser} : ∀ {nextId : Nat} {parent : Option Nat},
    (mkChunks nextId parent bs).1.length = bs.length := by
  induction bs with
  | nil => intro nextId parent; rfl
  | cons b rest ih => intro nextId parent; simp [mkChunks, ih]

theorem mkChunks_last {bs : List Ser} : ∀ {nextId : Nat} {parent : Option Nat},
    bs ≠ [] → (mkChunks nextId parent bs).2 = some (nextId + bs.length - 1) := by
  induction bs with
  | nil => intro _ _ h; exact absurd rfl h
  | cons b rest ih =>
    intro nextId parent _
    cases rest with
    | nil => simp [mkChunks]
    | cons b2 rest2 =>
      show (mkChunks (nextId + 1) (some nextId) (b2 :: rest2)).2 = _
      rw [ih (by simp)]
      congr 1
      simp only [List.length_cons]
      omega

theorem mkChunks_preserves : ∀ (bs : List Ser) (chunks : List Chunk) (parent : Option Nat),
    ChunksOK chunks → BucketsOK bs → ParentFits chunks parent bs →
    ChunksOK (chunks ++ (mkChunks chunks.length parent bs).1) := by
  intro bs
  induction bs with
  | nil =>
    intro chunks parent hck _ _
    simpa [mkChunks] using hck
  | cons b rest ih =>
    intro chunks parent hck hbs hpf
    have hbOK : b ≠ [] ∧ SortedSer b := by
      cases rest with
      | nil => exact hbs
      | cons b2 rest2 => exact hbs.1
    set c : Chunk := ⟨parent, minKey b, maxKey b, b⟩ with hc
    have hstep : chunks ++ (mkChunks chunks.length parent (b :: rest)).1 =
        (chunks ++ [c]) ++ (mkChunks (chunks ++ [c]).length (some chunks.length) rest).1 := by
      simp [mkChunks, List.append_assoc]
    rw [hstep]
    have hck' : ChunksOK (chunks ++ [c]) := by
      intro i hi
      rw [List.length_append, List.length_singleton] at hi
      rcases Nat.lt_or_ge i chunks.length with hlt | hge
      · rw [getChunk_append_left hlt]
        exact ⟨(hck i hlt).1, parentOKb_append hck hlt⟩
      · have hieq : i = chunks.length := by omega
        subst hieq
        have hgc : getChunk (chunks ++ [c]) chunks.length = c := by
          rw [getChunk, List.getD_append_right _ _ _ _ (Nat.le_refl _)]
          simp
        constructor
        · rw [hgc]
          exact chunkOKb_intro hbOK.1 hbOK.2 rfl rfl
        · rw [ParentOKb, hgc]
          cases hpar : c.parent with
          | none => rfl
          | some p =>
            have hp : parent = some p := hpar
            have hpf2 : p < chunks.length ∧ (getChunk chunks p).cend < minKey b := by
              rw [hp] at hpf
              exact ⟨hpf.1, hpf.2 b rest rfl⟩
            show (decide (p < chunks.length) &&
              decide ((getChunk (chunks ++ [c]) p).cend < c.cstart)) = true
            simp only [Bool.and_eq_true, decide_eq_true_eq]
            refine ⟨hpf2.1, ?_⟩
            rw [getChunk_append_left hpf2.1]
            exact hpf2.2
    have hpf' : ParentFits (chunks ++ [c]) (some chunks.length) rest := by
      refine ⟨by simp, ?_⟩
      rintro b2 rest2 rfl
      have hgc : getChunk (chunks ++ [c]) chunks.length = c := by
        rw [getChunk, List.getD_append_right _ _ _ _ (Nat.le_refl _)]
        simp
      rw [hgc]
      show maxKey b < minKey b2
      exact hbs.2.1
    have hrest : BucketsOK rest := by
      cases rest with
      | nil => trivial
      | cons b2 rest2 => exact hbs.2.2
    have := ih (chunks ++ [c]) (some chunks.length) hck' hrest hpf'
    simpa [List.length_append] using this

end Snapshot

namespace Snapshot

theorem mkChunks_map_content : ∀ (bs : List Ser) (nextId : Nat) (parent : Option Nat),
    (mkChunks nextId parent bs).1.map Chunk.content = bs := by
  intro bs
  induction bs with
  | nil => intro _ _; rfl
  | cons b rest ih =>
    intro nextId parent
    show Chunk.content ⟨parent, minKey b, maxKey b, b⟩ ::
      (mkChunks (nextId + 1) (some nextId) rest).1.map Chunk.content = b :: rest
    rw [ih]

theorem mkChunks_getChunk : ∀ (bs : List Ser) (nextId : Nat) (parent : Option Nat)
    (k : Nat), k < bs.length →
    getChunk (mkChunks nextId parent bs).1 k =
      ⟨if k = 0 then parent else some (nextId + k - 1),
       minKey (bs.getD k []), maxKey (bs.getD k []), bs.getD k []⟩ := by
  intro bs
  induction bs with
  | nil =>
    intro _ _ k hk
    simp at hk
  | cons b rest ih =>
    intro nextId parent k hk
    cases k with
    | zero => rfl
    | succ k =>
      have hk' : k < rest.length := by simpa using hk
      show getChunk (mkChunks (nextId + 1) (some nextId) rest).1 k = _
      rw [ih (nextId + 1) (some nextId) k hk']
      congr 1
      cases k with
      | zero => simp
      | succ m =>
        simp only [if_neg (Nat.succ_ne_zero m), if_neg (Nat.succ_ne_zero (m + 1))]
        congr 1
        omega

end Snapshot

/-- Claim C7 (confirmed): on first insertion, the input series is split
in index order into contiguous buckets of at most `MAX_BUCKET = 250`
points; the buckets are inserted in order, each chunk's parent pointing
to the previously inserted chunk (the first having no parent), and the
last inserted chunk's id becomes the recorded head. -/
theorem claim_C7 (ts : Ser) (hne : ts ≠ []) (_hsort : SortedSer ts) :
    ((timeseries.createSeries ts).chunks.map Chunk.content).flatten = ts ∧
    (∀ c ∈ (timeseries.createSeries ts).chunks,
      c.content.length ≤ Snapshot.maxBucketSize) ∧
    (∀ k, k < (timeseries.createSeries ts).chunks.length →
      (Snapshot.getChunk (timeseries.createSeries ts).chunks k).parent =
        (if k = 0 then none else some (k - 1))) ∧
    (timeseries.createSeries ts).heads = [(timeseries.createSeries ts).chunks.length - 1] := by
  have hbne : Snapshot.buckets ts ≠ [] := Snapshot.buckets_ne_nil ts
  have hchunks : (timeseries.createSeries ts).chunks =
      (Snapshot.mkChunks 0 none (Snapshot.buckets ts)).1 := by
    show [] ++ (Snapshot.mkChunks ([] : List Chunk).length none (Snapshot.buckets ts)).1 = _
    simp
  refine ⟨?_, ?_, ?_, ?_⟩
  · rw [hchunks, Snapshot.mkChunks_map_content, Snapshot.buckets_flatten]
  · intro c hc
    have : c.content ∈ (timeseries.createSeries ts).chunks.map Chunk.content :=
      List.mem_map.2 ⟨c, hc, rfl⟩
    rw [hchunks, Snapshot.mkChunks_map_content] at this
    exact (Snapshot.buckets_sizes hne this).1
  · intro k hk
    rw [hchunks] at hk ⊢
    rw [Snapshot.mkChunks_length] at hk
    rw [Snapshot.mkChunks_getChunk _ _ _ _ hk]
    show (if k = 0 then none else some (0 + k - 1)) = (if k = 0 then none else some (k - 1))
    cases k with
    | zero => rfl
    | succ m => simp
  · have hlast : (Snapshot.mkChunks 0 none (Snapshot.buckets ts)).2 =
        some ((Snapshot.buckets ts).length - 1) := by
      rw [Snapshot.mkChunks_last hbne]
      congr 1
      omega
    show [((Snapshot.mkChunks ([] : List Chunk).length none (Snapshot.buckets ts)).2.getD 0)] = _
    rw [show ([] : List Chunk).length = 0 from rfl, hlast, hchunks,
        Snapshot.mkChunks_length]
    rfl

/-- Claim C7, witness: the theorem applied to a concrete two-point
series. -/
theorem claim_C7_witness :
    ((timeseries.createSeries [(0, Val.S [65]), (1, Val.S [66])]).chunks.map
      Chunk.content).flatten = [(0, Val.S [65]), (1, Val.S [66])] ∧
    (∀ c ∈ (timeseries.createSeries [(0, Val.S [65]), (1, Val.S [66])]).chunks,
      c.content.length ≤ Snapshot.maxBucketSize) ∧
    (∀ k, k < (timeseries.createSeries [(0, Val.S [65]), (1, Val.S [66])]).chunks.length →
      (Snapshot.getChunk (timeseries.createSeries [(0, Val.S [65]), (1, Val.S [66])]).chunks
        k).parent = (if k = 0 then none else some (k - 1))) ∧
    (timeseries.createSeries [(0, Val.S [65]), (1, Val.S [66])]).heads =
      [(timeseries.createSeries [(0, Val.S [65]), (1, Val.S [66])]).chunks.length - 1] :=
  claim_C7 [(0, Val.S [65]), (1, Val.S [66])] (by decide) (by decide)

namespace Snapshot

theorem chainIds_eq_root {chunks : List Chunk} {ds : Option Nat} {fuel id : Nat}
    (h : (getChunk chunks id).parent = none) :
    chainIds chunks ds (fuel + 1) id = [id] := by
  simp [chainIds, h]

theorem chainIds_eq_step_none {chunks : List Chunk} {fuel id p : Nat}
    (h : (getChunk chunks id).parent = some p) :
    chainIds chunks none (fuel + 1) id = id :: chainIds chunks none fuel p := by
  simp [chainIds, h]

theorem chainIds_eq_step_some {chunks : List Chunk} {fuel id p d0 : Nat}
    (h : (getChunk chunks id).parent = some p) (hle : d0 ≤ (getChunk chunks p).cend) :
    chainIds chunks (some d0) (fuel + 1) id = id :: chainIds chunks (some d0) fuel p := by
  simp [chainIds, h, hle]

theorem chainIds_eq_stop {chunks : List Chunk} {fuel id p d0 : Nat}
    (h : (getChunk chunks id).parent = some p) (hgt : ¬ d0 ≤ (getChunk chunks p).cend) :
    chainIds chunks (some d0) (fuel + 1) id = [id] := by
  simp [chainIds, h, hgt]

theorem chainIds_ne_nil {chunks : List Chunk} {ds : Option Nat} {fuel id : Nat} :
    chainIds chunks ds fuel id ≠ [] := by
  cases fuel with
  | zero => simp [chainIds]
  | succ fuel => simp [chainIds]

theorem chunksToSer_append {chunks : List Chunk} {l1 l2 : List Nat} :
    chunksToSer chunks (l1 ++ l2) = chunksToSer chunks l1 ++ chunksToSer chunks l2 := by
  rw [chunksToSer, chunksToSer, chunksToSer, List.map_append, List.flatten_append]

theorem chunksToSer_single {chunks : List Chunk} {i : Nat} :
    chunksToSer chunks [i] = (getChunk chunks i).content := by
  simp [chunksToSer]

/-- Where the recursive fetch stopped: at a root, or (when a start
bound is given) at a chunk whose parent ends before the bound. -/
def StopOK (chunks : List Chunk) (ds : Option Nat) (c0 : Nat) : Prop :=
  ∀ p, (getChunk chunks c0).parent = some p →
    ∃ d0, ds = some d0 ∧ (getChunk chunks p).cend < d0

theorem chain_spec {chunks : List Chunk} (hck : ChunksOK chunks) (ds : Option Nat) :
    ∀ id, id < chunks.length → ∀ fuel, id < fuel →
    ∃ c0,
      (chainIds chunks ds fuel id).reverse.head? = some c0 ∧
      StopOK chunks ds c0 ∧
      SortedSer (chunksToSer chunks (chainIds chunks ds fuel id).reverse) ∧
      chunksToSer chunks (chainIds chunks ds fuel id).reverse ≠ [] ∧
      maxKey (chunksToSer chunks (chainIds chunks ds fuel id).reverse) =
        (getChunk chunks id).cend ∧
      minKey (chunksToSer chunks (chainIds chunks ds fuel id).reverse) =
        (getChunk chunks c0).cstart ∧
      c0 ≤ id ∧ c0 < chunks.length := by
  intro id
  induction id using Nat.strong_induction_on with
  | _ id ih =>
    intro hid fuel hfuel
    obtain ⟨f, rfl⟩ : ∃ f, fuel = f + 1 := ⟨fuel - 1, by omega⟩
    rcases chunkOKb_elim (hck id hid).1 with ⟨hcne, hcsort, hcs, hce⟩
    have hone : ∀ (hchain : chainIds chunks ds (f + 1) id = [id]),
        StopOK chunks ds id →
        ∃ c0, (chainIds chunks ds (f + 1) id).reverse.head? = some c0 ∧
          StopOK chunks ds c0 ∧
          SortedSer (chunksToSer chunks (chainIds chunks ds (f + 1) id).reverse) ∧
          chunksToSer chunks (chainIds chunks ds (f + 1) id).reverse ≠ [] ∧
          maxKey (chunksToSer chunks (chainIds chunks ds (f + 1) id).reverse) =
            (getChunk chunks id).cend ∧
          minKey (chunksToSer chunks (chainIds chunks ds (f + 1) id).reverse) =
            (getChunk chunks c0).cstart ∧
          c0 ≤ id ∧ c0 < chunks.length := by
      intro hchain hstop
      refine ⟨id, ?_, hstop, ?_, ?_, ?_, ?_, Nat.le_refl _, hid⟩ <;>
        rw [hchain]
      · rfl
      · simpa [chunksToSer_single] using hcsort
      · simpa [chunksToSer_single] using hcne
      · rw [show ([id] : List Nat).reverse = [id] from rfl, chunksToSer_single]
        exact hce.symm
      · rw [show ([id] : List Nat).reverse = [id] from rfl, chunksToSer_single]
        exact hcs.symm
    have hstep : ∀ p, (getChunk chunks id).parent = some p →
        ∀ (hchain : chainIds chunks ds (f + 1) id = id :: chainIds chunks ds f p),
        ∃ c0, (chainIds chunks ds (f + 1) id).reverse.head? = some c0 ∧
          StopOK chunks ds c0 ∧
          SortedSer (chunksToSer chunks (chainIds chunks ds (f + 1) id).reverse) ∧
          chunksToSer chunks (chainIds chunks ds (f + 1) id).reverse ≠ [] ∧
          maxKey (chunksToSer chunks (chainIds chunks ds (f + 1) id).reverse) =
            (getChunk chunks id).cend ∧
          minKey (chunksToSer chunks (chainIds chunks ds (f + 1) id).reverse) =
            (getChunk chunks c0).cstart ∧
          c0 ≤ id ∧ c0 < chunks.length := by
      intro p hp hchain
      rcases parentOKb_elim (hck id hid).2 hp with ⟨hplt, hpend⟩
      have hplen : p < chunks.length := Nat.lt_trans hplt hid
      have hpf : p < f := by omega
      rcases ih p hplt hplen f hpf with
        ⟨c0, hhead, hstop, hsortP, hneP, hmaxP, hminP, hc0le, hc0lt⟩
      set serP := chunksToSer chunks (chainIds chunks ds f p).reverse with hserP
      have hser : chunksToSer chunks (chainIds chunks ds (f + 1) id).reverse =
          serP ++ (getChunk chunks id).content := by
        rw [hchain, List.reverse_cons, chunksToSer_append, chunksToSer_single]
      have hkeysP_le : ∀ k ∈ keys serP, k ≤ (getChunk chunks p).cend := by
        intro k hk
        rw [← hmaxP]
        exact le_maxKey_of_mem hk
      have hkeysC_ge : ∀ k ∈ keys (getChunk chunks id).content,
          (getChunk chunks id).cstart ≤ k := by
        intro k hk
        rw [hcs]
        exact minKey_le_of_mem hk
      have hkeysC_le : ∀ k ∈ keys (getChunk chunks id).content,
          k ≤ (getChunk chunks id).cend := by
        intro k hk
        rw [hce]
        exact le_maxKey_of_mem hk
      have hminmax : minKey (getChunk chunks id).content ≤
          maxKey (getChunk chunks id).content :=
        minKey_le_of_mem (maxKey_mem hcne)
      refine ⟨c0, ?_, hstop, ?_, ?_, ?_, ?_, Nat.le_trans hc0le (Nat.le_of_lt hplt), hc0lt⟩
      · rw [hchain, List.reverse_cons, List.head?_append, hhead]
        rfl
      · rw [hser]
        refine sortedSer_append.2 ⟨hsortP, hcsort, ?_⟩
        intro i hi j hj
        exact Nat.lt_of_le_of_lt (hkeysP_le i hi)
          (Nat.lt_of_lt_of_le hpend (hkeysC_ge j hj))
      · rw [hser]
        intro hnil
        rcases List.append_eq_nil.1 hnil with ⟨h1, _⟩
        exact hneP h1
      · rw [hser]
        have hle : maxKey (serP ++ (getChunk chunks id).content) ≤
            (getChunk chunks id).cend := by
          refine maxKey_le (by simp [hcne]) ?_
          intro k hk
          rw [keys_append] at hk
          rcases List.mem_append.1 hk with hk | hk
          · have := hkeysP_le k hk
            omega
          · exact hkeysC_le k hk
        have hge : (getChunk chunks id).cend ≤
            maxKey (serP ++ (getChunk chunks id).content) := by
          refine le_maxKey_of_mem ?_
          rw [keys_append]
          refine List.mem_append.2 (Or.inr ?_)
          rw [hce]
          exact maxKey_mem hcne
        omega
      · rw [hser]
        have hc0end : (getChunk chunks c0).cstart ≤ (getChunk chunks p).cend := by
          rw [← hminP, ← hmaxP]
          exact (minKey_le_of_mem (maxKey_mem hneP))
        have hle : minKey (serP ++ (getChunk chunks id).content) ≥
            (getChunk chunks c0).cstart := by
          refine le_minKey (by simp [hneP]) ?_
          intro k hk
          rw [keys_append] at hk
          rcases List.mem_append.1 hk with hk | hk
          · rw [← hminP]
            exact minKey_le_of_mem hk
          · have := hkeysC_ge k hk
            omega
        have hge : minKey (serP ++ (getChunk chunks id).content) ≤
            (getChunk chunks c0).cstart := by
          refine minKey_le_of_mem ?_
          rw [keys_append]
          refine List.mem_append.2 (Or.inl ?_)
          rw [← hminP]
          exact minKey_mem hneP
        omega
    cases hp : (getChunk chunks id).parent with
    | none =>
      refine hone (chainIds_eq_root hp) ?_
      intro p hp'
      rw [hp] at hp'
      exact Option.noConfusion hp'
    | some p =>
      cases ds with
      | none => exact hstep p hp (chainIds_eq_step_none hp)
      | some d0 =>
        by_cases hle : d0 ≤ (getChunk chunks p).cend
        · exact hstep p hp (chainIds_eq_step_some hp hle)
        · refine hone (chainIds_eq_stop hp hle) ?_
          intro p' hp'
          rw [hp] at hp'
          obtain rfl := Option.some.inj hp'
          exact ⟨d0, rfl, by omega⟩

end Snapshot

namespace Snapshot

theorem chunksToSer_cons {chunks : List Chunk} {i : Nat} {ids : List Nat} :
    chunksToSer chunks (i :: ids) = (getChunk chunks i).content ++ chunksToSer chunks ids := by
  simp [chunksToSer]

theorem mem_keys_chunksToSer {chunks : List Chunk} {ids : List Nat} {k : Nat} :
    k ∈ keys (chunksToSer chunks ids) ↔
      ∃ i ∈ ids, k ∈ keys (getChunk chunks i).content := by
  induction ids with
  | nil => simp [chunksToSer, keys]
  | cons i rest ih =>
    rw [chunksToSer_cons, keys_append]
    simp only [List.mem_append, ih, List.mem_cons]
    constructor
    · rintro (h | ⟨j, hj, hk⟩)
      · exact ⟨i, Or.inl rfl, h⟩
      · exact ⟨j, Or.inr hj, hk⟩
    · rintro ⟨j, (rfl | hj), hk⟩
      · exact Or.inl hk
      · exact Or.inr ⟨j, hj, hk⟩

theorem bucket_keys_sub {ts b : Ser} (hb : b ∈ buckets ts) {k : Nat} (hk : k ∈ keys b) :
    k ∈ keys ts := by
  rcases mem_keys.1 hk with ⟨v, hv⟩
  refine mem_keys.2 ⟨v, ?_⟩
  rw [← buckets_flatten ts]
  exact List.mem_flatten.2 ⟨b, hb, hv⟩

theorem headId_lt {s : Store} (hInv : StoreInv s) (hne : s.heads ≠ []) :
    headId s < s.chunks.length := by
  rw [headId, List.getLast?_eq_getLast _ hne]
  exact hInv.2 _ (List.getLast_mem hne)

theorem minKey_le_bucket_head {ts b0 : Ser} {rest : List Ser}
    (hb : buckets ts = b0 :: rest) (hts : ts ≠ []) :
    minKey ts ≤ minKey b0 := by
  have hb0 : b0 ∈ buckets ts := by
    rw [hb]
    exact List.mem_cons_self _ _
  have hb0ne : b0 ≠ [] := (buckets_sizes hts hb0).2
  refine minKey_le_of_mem (bucket_keys_sub hb0 (minKey_mem hb0ne))

end Snapshot

namespace Snapshot

theorem update_append_eq {s : Store} {d : Ser}
    (happ : maxKey (chunksToSer s.chunks
      (rawchunkIds s.chunks (headId s) (some (minKey d)))) < minKey d) :
    update s d =
      ((insert_buckets s.chunks
          (some ((rawchunkIds s.chunks (headId s) (some (minKey d))).headD 0)) d).1,
       (insert_buckets s.chunks
          (some ((rawchunkIds s.chunks (headId s) (some (minKey d))).headD 0)) d).2.getD 0) := by
  rw [update]
  simp only [if_pos happ]

theorem update_patch_eq {s : Store} {d : Ser}
    (hnapp : ¬ maxKey (chunksToSer s.chunks
      (rawchunkIds s.chunks (headId s) (some (minKey d)))) < minKey d) :
    update s d =
      ((insert_buckets s.chunks
          (getChunk s.chunks
            ((rawchunkIds s.chunks (headId s) (some (minKey d))).headD 0)).parent
          (SeriesServices.patch
            (chunksToSer s.chunks (rawchunkIds s.chunks (headId s) (some (minKey d)))) d)).1,
       (insert_buckets s.chunks
          (getChunk s.chunks
            ((rawchunkIds s.chunks (headId s) (some (minKey d))).headD 0)).parent
          (SeriesServices.patch
            (chunksToSer s.chunks (rawchunkIds s.chunks (headId s) (some (minKey d)))) d)).2.getD 0) := by
  rw [update]
  simp only [if_neg hnapp]

theorem insert_buckets_all {chunks : List Chunk} {parent : Option Nat} {ts : Ser}
    (hck : ChunksOK chunks) (hts : ts ≠ []) (hsort : SortedSer ts)
    (hpf : ParentFits chunks parent (buckets ts)) :
    ChunksOK (insert_buckets chunks parent ts).1 ∧
    (insert_buckets chunks parent ts).1 = chunks ++ (mkChunks chunks.length parent (buckets ts)).1 ∧
    (insert_buckets chunks parent ts).2 =
      some (chunks.length + (buckets ts).length - 1) ∧
    (insert_buckets chunks parent ts).1.length = chunks.length + (buckets ts).length := by
  have hbOK : BucketsOK (buckets ts) := bucketsOK_buckets hts hsort
  refine ⟨mkChunks_preserves _ _ _ hck hbOK hpf, rfl, ?_, ?_⟩
  · show (mkChunks chunks.length parent (buckets ts)).2 = _
    exact mkChunks_last (buckets_ne_nil ts)
  · show (chunks ++ (mkChunks chunks.length parent (buckets ts)).1).length = _
    rw [List.length_append, mkChunks_length]

theorem update_preserves {s : Store} (hInv : StoreInv s) (hne : s.heads ≠ []) {d : Ser}
    (hd : d ≠ [])
    (hsorted : maxKey (chunksToSer s.chunks
        (rawchunkIds s.chunks (headId s) (some (minKey d)))) < minKey d →
      SortedSer d) :
    (∃ added, (update s d).1 = s.chunks ++ added) ∧
    ChunksOK (update s d).1 ∧
    (update s d).2 < (update s d).1.length ∧
    s.chunks.length ≤ (update s d).1.length := by
  have hhead : headId s < s.chunks.length := headId_lt hInv hne
  rcases chain_spec hInv.1 (some (minKey d)) (headId s) hhead (headId s + 1)
      (Nat.lt_succ_self _) with
    ⟨c0, hc0head, hstop, hsortO, hneO, hmaxO, hminO, hc0le, hc0lt⟩
  have hraw : rawchunkIds s.chunks (headId s) (some (minKey d)) =
      (chainIds s.chunks (some (minKey d)) (headId s + 1) (headId s)).reverse := rfl
  rw [← hraw] at hc0head hsortO hneO hmaxO hminO
  have hheadD : (rawchunkIds s.chunks (headId s) (some (minKey d))).headD 0 = c0 := by
    rw [List.headD_eq_head?, hc0head]
    rfl
  by_cases happ : maxKey (chunksToSer s.chunks
      (rawchunkIds s.chunks (headId s) (some (minKey d)))) < minKey d
  · -- append fast path: chain the diff's buckets to the deepest fetched chunk
    rw [update_append_eq happ, hheadD]
    have hc0end : (getChunk s.chunks c0).cend < minKey d := by
      rcases chunkOKb_elim (hInv.1 c0 hc0lt).1 with ⟨hcne, _, _, hce⟩
      have : (getChunk s.chunks c0).cend ≤ maxKey (chunksToSer s.chunks
          (rawchunkIds s.chunks (headId s) (some (minKey d)))) := by
        refine le_maxKey_of_mem (mem_keys_chunksToSer.2 ⟨c0, ?_, ?_⟩)
        · exact List.mem_of_mem_head? (by rw [hc0head]; rfl)
        · rw [hce]
          exact maxKey_mem hcne
      omega
    have hpf : ParentFits s.chunks (some c0) (buckets d) := by
      refine ⟨hc0lt, ?_⟩
      intro b0 rest hb
      have := minKey_le_bucket_head hb hd
      omega
    rcases insert_buckets_all hInv.1 hd (hsorted happ) hpf with ⟨hok, heq, hlast, hlen⟩
    refine ⟨⟨_, heq⟩, hok, ?_, ?_⟩
    · rw [hlast, hlen]
      have := buckets_ne_nil d
      have : 0 < (buckets d).length := List.length_pos.2 this
      simp only [Option.getD_some]
      omega
    · rw [hlen]
      omega
  · -- override path: patch the reconstructed tail
    rw [update_patch_eq happ, hheadD]
    have hnewser : SeriesServices.patch (chunksToSer s.chunks
        (rawchunkIds s.chunks (headId s) (some (minKey d)))) d ≠ [] :=
      SeriesServices.patch_ne_nil hneO
    have hnewsort : SortedSer (SeriesServices.patch (chunksToSer s.chunks
        (rawchunkIds s.chunks (headId s) (some (minKey d)))) d) :=
      SeriesServices.sorted_patch
    have hpf : ParentFits s.chunks (getChunk s.chunks c0).parent
        (buckets (SeriesServices.patch (chunksToSer s.chunks
          (rawchunkIds s.chunks (headId s) (some (minKey d)))) d)) := by
      cases hpar : (getChunk s.chunks c0).parent with
      | none => trivial
      | some p =>
        rcases parentOKb_elim (hInv.1 c0 hc0lt).2 hpar with ⟨hplt, hpend⟩
        have hplen : p < s.chunks.length := Nat.lt_trans hplt hc0lt
        have hpds : (getChunk s.chunks p).cend < minKey d := by
          rcases hstop p hpar with ⟨d0, hd0, hlt⟩
          obtain rfl := Option.some.inj hd0
          exact hlt
        refine ⟨hplen, ?_⟩
        intro b0 rest hb
        have hple : (getChunk s.chunks p).cend <
            minKey (SeriesServices.patch (chunksToSer s.chunks
              (rawchunkIds s.chunks (headId s) (some (minKey d)))) d) := by
          have hall : ∀ k ∈ keys (SeriesServices.patch (chunksToSer s.chunks
              (rawchunkIds s.chunks (headId s) (some (minKey d)))) d),
              (getChunk s.chunks p).cend + 1 ≤ k := by
            intro k hk
            rw [SeriesServices.keys_patch] at hk
            rcases SeriesServices.mem_indexUnion.1 hk with hk | hk
            · have := minKey_le_of_mem hk
              omega
            · have := minKey_le_of_mem hk
              omega
          have := le_minKey hnewser hall
          omega
        have := minKey_le_bucket_head hb hnewser
        omega
    rcases insert_buckets_all hInv.1 hnewser hnewsort hpf with ⟨hok, heq, hlast, hlen⟩
    refine ⟨⟨_, heq⟩, hok, ?_, ?_⟩
    · rw [hlast, hlen]
      have := buckets_ne_nil (SeriesServices.patch (chunksToSer s.chunks
        (rawchunkIds s.chunks (headId s) (some (minKey d)))) d)
      have h0 : 0 < (buckets (SeriesServices.patch (chunksToSer s.chunks
        (rawchunkIds s.chunks (headId s) (some (minKey d)))) d)).length :=
        List.length_pos.2 this
      simp only [Option.getD_some]
      omega
    · rw [hlen]
      omega

end Snapshot

theorem base_keys_le_cend {s : Store} (hInv : StoreInv s) (hne : s.heads ≠ [])
    {a b k : Nat} (hk : k ∈ keys (Snapshot.snapLastRange s a b)) :
    k ≤ (Snapshot.getChunk s.chunks (Snapshot.headId s)).cend := by
  have hhead : Snapshot.headId s < s.chunks.length := Snapshot.headId_lt hInv hne
  rcases Snapshot.chain_spec hInv.1 (some a) (Snapshot.headId s) hhead
      (Snapshot.headId s + 1) (Nat.lt_succ_self _) with
    ⟨c0, _, _, _, _, hmaxO, _, _, _⟩
  have hraw : Snapshot.rawchunkIds s.chunks (Snapshot.headId s) (some a) =
      (Snapshot.chainIds s.chunks (some a) (Snapshot.headId s + 1)
        (Snapshot.headId s)).reverse := rfl
  rw [← hraw] at hmaxO
  have hk' : k ∈ keys (Snapshot.chunksToSer s.chunks
      (Snapshot.rawchunkIds s.chunks (Snapshot.headId s) (some a))) := by
    rcases mem_keys.1 hk with ⟨v, hv⟩
    exact mem_keys.2 ⟨v, List.mem_filter.1 hv |>.1⟩
  rw [← hmaxO]
  exact le_maxKey_of_mem hk'

theorem oldsnap_maxKey {s : Store} (hInv : StoreInv s) (hne : s.heads ≠ []) (a : Nat) :
    maxKey (Snapshot.chunksToSer s.chunks
      (Snapshot.rawchunkIds s.chunks (Snapshot.headId s) (some a))) =
      (Snapshot.getChunk s.chunks (Snapshot.headId s)).cend := by
  have hhead : Snapshot.headId s < s.chunks.length := Snapshot.headId_lt hInv hne
  rcases Snapshot.chain_spec hInv.1 (some a) (Snapshot.headId s) hhead
      (Snapshot.headId s + 1) (Nat.lt_succ_self _) with
    ⟨c0, _, _, _, _, hmaxO, _, _, _⟩
  exact hmaxO

theorem insertDiff_sorted_of_append {s : Store} (hInv : StoreInv s) (hne : s.heads ≠ [])
    {newts : Ser} (hsort : SortedSer newts)
    (happ : maxKey (Snapshot.chunksToSer s.chunks (Snapshot.rawchunkIds s.chunks
        (Snapshot.headId s) (some (minKey (timeseries.insertDiff s newts))))) <
      minKey (timeseries.insertDiff s newts)) :
    SortedSer (timeseries.insertDiff s newts) := by
  rw [oldsnap_maxKey hInv hne] at happ
  by_cases hdb : dropNulls (Snapshot.snapLastRange s (minKey newts) (maxKey newts)) = []
  · rw [timeseries.insertDiff, SeriesServices.diff_of_dropNulls_eq_nil hdb]
    exact hsort
  · have hempty : (dropNulls (Snapshot.snapLastRange s (minKey newts)
        (maxKey newts))).isEmpty = false := List.isEmpty_eq_false.2 hdb
    have hform : timeseries.insertDiff s newts =
        ((newts.filter (fun p => (keys (dropNulls (Snapshot.snapLastRange s (minKey newts)
            (maxKey newts)))).contains p.1)).filter
          (fun p => !SeriesServices.maskEqual ((slookup (dropNulls (Snapshot.snapLastRange s
            (minKey newts) (maxKey newts))) p.1).getD .N) p.2)) ++
        ((newts.filter (fun p => !(keys (dropNulls (Snapshot.snapLastRange s (minKey newts)
            (maxKey newts)))).contains p.1)).filter
          (fun p => !isNullV p.2)) := by
      rw [timeseries.insertDiff]
      simp [SeriesServices.diff, hempty]
    have hover : ((newts.filter (fun p => (keys (dropNulls (Snapshot.snapLastRange s
        (minKey newts) (maxKey newts)))).contains p.1)).filter
          (fun p => !SeriesServices.maskEqual ((slookup (dropNulls (Snapshot.snapLastRange s
            (minKey newts) (maxKey newts))) p.1).getD .N) p.2)) = [] := by
      rw [List.eq_nil_iff_forall_not_mem]
      rintro ⟨i, v⟩ hmem
      have hmemd : (i, v) ∈ timeseries.insertDiff s newts := by
        rw [hform]
        exact List.mem_append.2 (Or.inl hmem)
      have hmin : minKey (timeseries.insertDiff s newts) ≤ i :=
        minKey_le_of_mem (mem_keys.2 ⟨v, hmemd⟩)
      have hcont := (List.mem_filter.1 (List.mem_filter.1 hmem).1).2
      have hkb : i ∈ keys (dropNulls (Snapshot.snapLastRange s (minKey newts)
          (maxKey newts))) := SeriesServices.contains_keys.1 hcont
      have hkb' : i ∈ keys (Snapshot.snapLastRange s (minKey newts) (maxKey newts)) := by
        rcases mem_keys.1 hkb with ⟨w, hw⟩
        exact mem_keys.2 ⟨w, (SeriesServices.mem_dropNulls.1 hw).1⟩
      have := base_keys_le_cend hInv hne hkb'
      omega
    rw [hform, hover, List.nil_append]
    refine List.Pairwise.sublist ?_ hsort
    exact (keys_sublist_of_filter.trans keys_sublist_of_filter)

theorem tshUpdate_shape (s : Store) (newts : Ser) :
    (timeseries._update s newts).1 = s ∨
    ((timeseries.insertDiff s newts ≠ []) ∧
      (timeseries._update s newts).1 =
        { chunks := (Snapshot.update s (timeseries.insertDiff s newts)).1,
          heads := s.heads ++ [(Snapshot.update s (timeseries.insertDiff s newts)).2],
          csetCount := s.csetCount + 1 }) := by
  by_cases hd : timeseries.insertDiff s newts = []
  · left
    rw [timeseries._update, dif_pos hd]
  · by_cases hg : (isNullV ((timeseries.insertDiff s newts).head hd).2 ||
        isNullV ((timeseries.insertDiff s newts).getLast hd).2) = true
    · by_cases hp : dropNulls (SeriesServices.patch (Snapshot.snapLast s)
          (timeseries.insertDiff s newts)) = []
      · left
        rw [timeseries._update, dif_neg hd, if_pos hg, if_pos hp]
      · right
        exact ⟨hd, by rw [timeseries._update, dif_neg hd, if_pos hg, if_neg hp]⟩
    · right
      exact ⟨hd, by rw [timeseries._update, dif_neg hd, if_neg hg]⟩

theorem tshUpdate_inv {s : Store} (hInv : StoreInv s) (hne : s.heads ≠ [])
    {newts : Ser} (hsort : SortedSer newts) :
    StoreInv (timeseries._update s newts).1 ∧ (timeseries._update s newts).1.heads ≠ [] := by
  rcases tshUpdate_shape s newts with h | ⟨hd, h⟩
  · rw [h]
    exact ⟨hInv, hne⟩
  · rw [h]
    rcases Snapshot.update_preserves hInv hne hd
        (fun happ => insertDiff_sorted_of_append hInv hne hsort happ) with
      ⟨⟨added, hadd⟩, hok, hlt, hlen⟩
    refine ⟨⟨hok, ?_⟩, by simp⟩
    intro hh hhm
    show hh < (Snapshot.update s (timeseries.insertDiff s newts)).1.length
    rcases List.mem_append.1 hhm with hhm | hhm
    · have := hInv.2 hh hhm
      omega
    · rcases List.mem_singleton.1 hhm with rfl
      exact hlt

/-- The states of one series reachable through the public insertion
API: a first insertion of a non-empty sorted duplicate-free series
creates the store, and every later insertion of a non-empty sorted
duplicate-free series goes through `timeseries._update` (which may
leave the store unchanged). -/
inductive Reachable : Store → Prop
  | create (ts : Ser) (hne : ts ≠ []) (hsort : SortedSer ts) :
      Reachable (timeseries.createSeries ts)
  | step (s : Store) (newts : Ser) (hs : Reachable s) (hne : newts ≠ [])
      (hsort : SortedSer newts) : Reachable (timeseries._update s newts).1

theorem reachable_inv {s : Store} (h : Reachable s) : StoreInv s ∧ s.heads ≠ [] := by
  induction h with
  | create ts hne hsort =>
    have hbne : Snapshot.buckets ts ≠ [] := Snapshot.buckets_ne_nil ts
    have hbpos : 0 < (Snapshot.buckets ts).length := List.length_pos.2 hbne
    have hchunksOK : ChunksOK ([] ++ (Snapshot.mkChunks 0 none (Snapshot.buckets ts)).1) :=
      Snapshot.mkChunks_preserves (Snapshot.buckets ts) [] none
        (fun i hi => by simp at hi) (bucketsOK_buckets hne hsort) trivial
    constructor
    · constructor
      · simpa using hchunksOK
      · intro hh hhm
        have hchunks : (timeseries.createSeries ts).chunks =
            (Snapshot.mkChunks 0 none (Snapshot.buckets ts)).1 := by
          show [] ++ (Snapshot.mkChunks ([] : List Chunk).length none (Snapshot.buckets ts)).1 = _
          simp
        have hheads : (timeseries.createSeries ts).heads =
            [(Snapshot.mkChunks 0 none (Snapshot.buckets ts)).2.getD 0] := rfl
        rw [hheads] at hhm
        rcases List.mem_singleton.1 hhm with rfl
        rw [hchunks, Snapshot.mkChunks_length, Snapshot.mkChunks_last hbne]
        simp only [Option.getD_some]
        omega
    · show [(Snapshot.mkChunks ([] : List Chunk).length none (Snapshot.buckets ts)).2.getD 0] ≠ []
      simp
  | step s newts _ hne hsort ih =>
    exact tshUpdate_inv ih.1 ih.2 hsort

/-- Claim C6 (confirmed): in every reachable store, a chunk with a
parent starts strictly after its parent ends, and reconstructing any
revision's snapshot (walking the parent chain from its recorded head
and concatenating oldest first) yields a series with strictly
increasing index. -/
theorem claim_C6 (s : Store) (h : Reachable s) :
    (∀ i, i < s.chunks.length → ∀ p, (Snapshot.getChunk s.chunks i).parent = some p →
      (Snapshot.getChunk s.chunks p).cend < (Snapshot.getChunk s.chunks i).cstart) ∧
    (∀ hd ∈ s.heads, SortedSer (Snapshot.chunksToSer s.chunks
      (Snapshot.rawchunkIds s.chunks hd none))) := by
  rcases reachable_inv h with ⟨hInv, _⟩
  constructor
  · intro i hi p hp
    exact (Snapshot.parentOKb_elim (hInv.1 i hi).2 hp).2
  · intro hd hmem
    have hlt : hd < s.chunks.length := hInv.2 hd hmem
    rcases Snapshot.chain_spec hInv.1 none hd hlt (hd + 1) (Nat.lt_succ_self _) with
      ⟨c0, _, _, hsortO, _⟩
    exact hsortO


/-- Claim C6, witness: the theorem applied to the store created by a
concrete first insertion, at its recorded head. -/
theorem claim_C6_witness :
    SortedSer (Snapshot.chunksToSer
      (timeseries.createSeries [((0 : Nat), Val.S [65]), (1, Val.S [66])]).chunks
      (Snapshot.rawchunkIds
        (timeseries.createSeries [((0 : Nat), Val.S [65]), (1, Val.S [66])]).chunks 0 none)) :=
  (claim_C6 _ (Reachable.create [((0 : Nat), Val.S [65]), (1, Val.S [66])]
    (by decide) (by decide))).2 0 (by decide)

namespace Snapshot

theorem chainIds_filter_all {chunks : List Chunk} (hck : ChunksOK chunks) :
    ∀ id, id < chunks.length → ∀ fuel, id < fuel → ∀ d0,
    (∀ k ∈ keys (chunksToSer chunks (chainIds chunks none fuel id).reverse), d0 ≤ k) →
    chainIds chunks (some d0) fuel id = chainIds chunks none fuel id := by
  intro id
  induction id using Nat.strong_induction_on with
  | _ id ih =>
    intro hid fuel hfuel d0 hall
    obtain ⟨f, rfl⟩ : ∃ f, fuel = f + 1 := ⟨fuel - 1, by omega⟩
    cases hp : (getChunk chunks id).parent with
    | none =>
      rw [chainIds_eq_root hp, chainIds_eq_root hp]
    | some p =>
      rcases parentOKb_elim (hck id hid).2 hp with ⟨hplt, _⟩
      have hplen : p < chunks.length := Nat.lt_trans hplt hid
      have hpf : p < f := by omega
      rw [chainIds_eq_step_none hp] at hall
      have hsub : ∀ k ∈ keys (chunksToSer chunks (chainIds chunks none f p).reverse),
          d0 ≤ k := by
        intro k hk
        refine hall k ?_
        rw [List.reverse_cons, chunksToSer_append, keys_append]
        exact List.mem_append.2 (Or.inl hk)
      have hcend : d0 ≤ (getChunk chunks p).cend := by
        rcases chunkOKb_elim (hck p hplen).1 with ⟨hpne, _, _, hpce⟩
        have hm : maxKey (getChunk chunks p).content ∈
            keys (chunksToSer chunks (chainIds chunks none f p).reverse) := by
          refine mem_keys_chunksToSer.2 ⟨p, ?_, maxKey_mem hpne⟩
          rw [List.mem_reverse]
          have : chainIds chunks none f p ≠ [] := chainIds_ne_nil
          cases hc : chainIds chunks none f p with
          | nil => exact absurd hc this
          | cons a l =>
            have ha : p = a := by
              cases f with
              | zero => simpa [chainIds] using congrArg (fun l => l.head?) hc
              | succ f2 =>
                cases hp2 : (getChunk chunks p).parent with
                | none =>
                  rw [chainIds_eq_root hp2] at hc
                  simpa using congrArg (fun l => l.head?) hc
                | some q =>
                  rw [chainIds_eq_step_none hp2] at hc
                  simpa using congrArg (fun l => l.head?) hc
            rw [← ha] at hc ⊢
            clear ha
            simp
        rw [hpce]
        exact hsub _ hm
      rw [chainIds_eq_step_some hp hcend, chainIds_eq_step_none hp,
          ih p hplt hplen f hpf d0 hsub]

theorem snapLastRange_full {s : Store} (hInv : StoreInv s) (hne : s.heads ≠ []) :
    snapLastRange s (minKey (snapLast s)) (maxKey (snapLast s)) = snapLast s := by
  have hhead : headId s < s.chunks.length := headId_lt hInv hne
  have hallmin : ∀ k ∈ keys (chunksToSer s.chunks
      (chainIds s.chunks none (headId s + 1) (headId s)).reverse),
      minKey (snapLast s) ≤ k := by
    intro k hk
    exact minKey_le_of_mem hk
  have hchain := chainIds_filter_all hInv.1 (headId s) hhead (headId s + 1)
    (Nat.lt_succ_self _) (minKey (snapLast s)) hallmin
  rw [snapLastRange, rawchunkIds, hchain]
  show sliceSer _ _ (snapLast s) = snapLast s
  refine sliceSer_eq_self ?_
  rintro ⟨i, v⟩ hp
  have hik : i ∈ keys (snapLast s) := mem_keys.2 ⟨v, hp⟩
  exact ⟨minKey_le_of_mem hik, le_maxKey_of_mem hik⟩

end Snapshot

/-- Claim C5 (corrected): `diff(x, x)` is empty for every series `x`
that is empty or has at least one non-null point — and any stored
series does (full erasure is forbidden), so re-inserting the stored
series returns nothing and leaves the store (revision rows, chunks and
changeset counter) unchanged.  (As stated, over every series, the
claim fails: an all-null non-empty `x` has `diff(x, x) = x ≠ ∅`.) -/
theorem claim_C5 (s : Store) (hInv : StoreInv s) (hne : s.heads ≠ [])
    (hnn : dropNulls (Snapshot.snapLast s) ≠ []) :
    (∀ x : Ser, NodupKeys x → (x = [] ∨ dropNulls x ≠ []) →
      SeriesServices.diff (some x) x = []) ∧
    timeseries._update s (Snapshot.snapLast s) = (s, .nochange) := by
  have hpure : ∀ x : Ser, NodupKeys x → (x = [] ∨ dropNulls x ≠ []) →
      SeriesServices.diff (some x) x = [] := by
    intro x hx hcase
    rcases hcase with rfl | hnn'
    · rw [SeriesServices.diff_of_dropNulls_eq_nil (show dropNulls [] = [] from rfl)]
    · exact SeriesServices.diff_self hx hnn'
  refine ⟨hpure, ?_⟩
  have hhead : Snapshot.headId s < s.chunks.length := Snapshot.headId_lt hInv hne
  rcases Snapshot.chain_spec hInv.1 none (Snapshot.headId s) hhead
      (Snapshot.headId s + 1) (Nat.lt_succ_self _) with
    ⟨c0, _, _, hsortX, hneX, _⟩
  have hsortX' : SortedSer (Snapshot.snapLast s) := hsortX
  have hdiffnil : timeseries.insertDiff s (Snapshot.snapLast s) = [] := by
    rw [timeseries.insertDiff, Snapshot.snapLastRange_full hInv hne]
    exact hpure _ (sortedSer_nodup hsortX') (Or.inr hnn)
  rw [timeseries._update, dif_pos hdiffnil]

/-- Claim C5, counterexample to the claim as stated: for the all-null
series `x = [(0, null)]`, `diff(x, x)` is `x` itself, not the empty
series (the code strips the base's nulls and returns `other` verbatim
when nothing remains). -/
theorem claim_C5_counterexample :
    SeriesServices.diff (some [((0 : Nat), Val.N)]) [((0 : Nat), Val.N)] ≠ [] := by
  decide

/-- Claim C5, witness: re-inserting the stored series of a concrete
two-point store returns `nochange` and leaves the store unchanged. -/
theorem claim_C5_witness :
    timeseries._update (timeseries.createSeries [(0, Val.S [65]), (2, Val.S [66])])
      (Snapshot.snapLast (timeseries.createSeries [(0, Val.S [65]), (2, Val.S [66])])) =
      (timeseries.createSeries [(0, Val.S [65]), (2, Val.S [66])], .nochange) :=
  (claim_C5 (timeseries.createSeries [(0, Val.S [65]), (2, Val.S [66])])
    (by decide) (by decide) (by decide)).2

/-- Claim C8 (confirmed): when the diff of an insert is non-empty but
patching it into the full stored series and dropping nulls leaves
nothing (the insert would erase every remaining point), `_update`
raises the erasure error before allocating a changeset or writing a
chunk: the store is unchanged. -/
theorem claim_C8 (s : Store) (newts : Ser) (hInv : StoreInv s) (hne : s.heads ≠ [])
    (hnodup : NodupKeys newts)
    (hd : timeseries.insertDiff s newts ≠ [])
    (hpat : dropNulls (SeriesServices.patch (Snapshot.snapLast s)
      (timeseries.insertDiff s newts)) = []) :
    timeseries._update s newts = (s, .erasureError) := by
  have hnodupd : NodupKeys (timeseries.insertDiff s newts) :=
    SeriesServices.nodupKeys_diff hnodup
  have hnull : isNullV ((timeseries.insertDiff s newts).head hd).2 = true := by
    by_contra hno
    rw [Bool.not_eq_true] at hno
    have hmem : ((timeseries.insertDiff s newts).head hd) ∈
        timeseries.insertDiff s newts := List.head_mem hd
    have hmem' : (((timeseries.insertDiff s newts).head hd).1,
        ((timeseries.insertDiff s newts).head hd).2) ∈
        timeseries.insertDiff s newts := by
      simpa using hmem
    have hld := slookup_of_mem hnodupd hmem'
    have hlp : slookup (SeriesServices.patch (Snapshot.snapLast s)
        (timeseries.insertDiff s newts)) ((timeseries.insertDiff s newts).head hd).1 =
        some ((timeseries.insertDiff s newts).head hd).2 := by
      rw [SeriesServices.slookup_patch, hld]
      rfl
    have hmempatch := mem_of_slookup hlp
    have : (((timeseries.insertDiff s newts).head hd).1,
        ((timeseries.insertDiff s newts).head hd).2) ∈
        dropNulls (SeriesServices.patch (Snapshot.snapLast s)
          (timeseries.insertDiff s newts)) :=
      SeriesServices.mem_dropNulls.2 ⟨hmempatch, hno⟩
    rw [hpat] at this
    simp at this
  have hguard : (isNullV ((timeseries.insertDiff s newts).head hd).2 ||
      isNullV ((timeseries.insertDiff s newts).getLast hd).2) = true := by
    rw [hnull]
    rfl
  rw [timeseries._update, dif_neg hd, if_pos hguard, if_pos hpat]

/-- Claim C8, witness: inserting an all-null series over a one-point
store raises the erasure error and leaves the store unchanged. -/
theorem claim_C8_witness :
    timeseries._update (timeseries.createSeries [(0, Val.S [65])]) [((0 : Nat), Val.N)] =
      (timeseries.createSeries [(0, Val.S [65])], .erasureError) :=
  claim_C8 (timeseries.createSeries [(0, Val.S [65])]) [((0 : Nat), Val.N)]
    (by decide) (by decide) (by decide) (by decide) (by decide)

/-- Claim C2 (code bug): `Snapshot.update` has no `MIN_BUCKET` guard —
the append fast path is taken whenever the diff starts strictly after
the reconstructed tail, regardless of how small that tail is.  At the
failing input below the stored series has a single point (fewer than
`MIN_BUCKET = 10`) and the diff lies past it; the claim (and the
repository's own test `test_append`, which patches
`_min_bucket_size` and expects the small tail chunk to be rewritten)
requires the rewrite path, but the code chains a diff-only chunk
directly under the head: the new chunk's parent is the old head and its
content is just the diff, not the patched tail. -/
theorem claim_C2 :
    (Snapshot.snapLast (timeseries.createSeries [(0, Val.S [65])])).length < 10 ∧
    Snapshot.update (timeseries.createSeries [(0, Val.S [65])]) [(1, Val.S [66])] =
      ([Chunk.mk none 0 0 [(0, Val.S [65])], Chunk.mk (some 0) 1 1 [(1, Val.S [66])]], 1) ∧
    (Snapshot.getChunk
        (Snapshot.update (timeseries.createSeries [(0, Val.S [65])]) [(1, Val.S [66])]).1
        1).content ≠
      SeriesServices.patch (Snapshot.snapLast (timeseries.createSeries [(0, Val.S [65])]))
        [(1, Val.S [66])] := by
  decide

namespace Codec

/-- `k`-byte little-endian encoding of a machine integer, as
`numpy`'s raw buffer stores 8-byte timestamps, doubles (by bit
pattern) — the byte list an `ndarray.data.tobytes()` produces. -/
def toLE : Nat → Nat → List Nat
  | 0, _ => []
  | k + 1, n => n % 256 :: toLE k (n / 256)

/-- Read back a little-endian byte list. -/
def fromLE : List Nat → Nat
  | [] => 0
  | b :: rest => b + 256 * fromLE rest

/-- `struct.pack('!L', n)`: the 4-byte big-endian length prefix. -/
def beU32 (n : Nat) : List Nat := (toLE 4 n).reverse

/-- `struct.unpack('!L', bs)`. -/
def fromBE (l : List Nat) : Nat := fromLE l.reverse

/-- `b'\0'.join(parts)`. -/
def joinZ : List (List Nat) → List Nat
  | [] => []
  | [p] => p
  | p :: q :: rest => p ++ 0 :: joinZ (q :: rest)

/-- `bs.split(b'\0')`. -/
def splitZ : List Nat → List (List Nat)
  | [] => [[]]
  | b :: rest =>
    if b = 0 then [] :: splitZ rest
    else
      match splitZ rest with
      | [] => [[b]]
      | h :: t => (b :: h) :: t

/-- `np.frombuffer` over an 8-byte dtype: cut the buffer into 8-byte
little-endian words.  Callers reject misaligned buffers (as
`frombuffer` raises on them) before reading, so the final catch-all
arm is never reached on accepted inputs. -/
def parseWords : List Nat → List Nat
  | [] => []
  | b0 :: b1 :: b2 :: b3 :: b4 :: b5 :: b6 :: b7 :: rest =>
      fromLE [b0, b1, b2, b3, b4, b5, b6, b7] :: parseWords rest
  | l => [fromLE l]

/-- `Snapshot._serialize` for a float64 series, at byte level (one
entry per value date: the 8-byte timestamp and the 8-byte IEEE-754 bit
pattern), producing the bytes handed to `zlib.compress`:
`struct.pack('!L', len(indexes)) + indexes + values`.  `struct.pack`
raises when the index byte count exceeds the u32 range. -/
def serializeF (ts : List (Nat × Nat)) : Option (List Nat) :=
  let indexes := (ts.map (fun p => toLE 8 p.1)).flatten
  let values := (ts.map (fun p => toLE 8 p.2)).flatten
  if indexes.length < 2 ^ 32 then some (beU32 indexes.length ++ indexes ++ values)
  else none

/-- `Snapshot._serialize` for a string (object) series: values are the
UTF-8 byte runs joined on `\x00`, a null encoded as `\x03`; a string
containing either reserved byte fails the `assert`. -/
def serializeS (ts : List (Nat × Option (List Nat))) : Option (List Nat) :=
  let indexes := (ts.map (fun p => toLE 8 p.1)).flatten
  if ts.any (fun p => match p.2 with
              | some str => str.contains 0 || str.contains 3
              | none => false) then none
  else
    let values := joinZ (ts.map (fun p => match p.2 with
      | none => [3]
      | some str => str))
    if indexes.length < 2 ^ 32 then some (beU32 indexes.length ++ indexes ++ values)
    else none

/-- `pandas.Index.is_monotonic_increasing` (non-strict). -/
def isMonotone : List Nat → Bool
  | [] => true
  | [_] => true
  | a :: b :: rest => (a ≤ b : Bool) && isMonotone (b :: rest)

/-- `Snapshot._decodechunk` followed by `_chunks_to_ts` on one float
chunk: split off the length-prefixed index bytes, rebuild the 8-byte
words (failing, as `frombuffer` does, on a misaligned buffer), check
`len(values) == len(index)` and the monotonic-index assertion. -/
def decodeF (bs : List Nat) : Option (List (Nat × Nat)) :=
  if bs.length < 4 then none
  else
    let isize := fromBE (bs.take 4)
    let ib := (bs.drop 4).take isize
    let vb := (bs.drop 4).drop isize
    if ib.length % 8 ≠ 0 || vb.length % 8 ≠ 0 then none
    else
      let idx := parseWords ib
      let vals := parseWords vb
      if idx.length ≠ vals.length then none
      else if isMonotone idx then some (idx.zip vals)
      else none

/-- `Snapshot._decodechunk` followed by `_chunks_to_ts` on one string
chunk: the value bytes are split on `\x00`, `b'\x03'` standing for a
null. -/
def decodeS (bs : List Nat) : Option (List (Nat × Option (List Nat))) :=
  if bs.length < 4 then none
  else
    let isize := fromBE (bs.take 4)
    let ib := (bs.drop 4).take isize
    let vb := (bs.drop 4).drop isize
    if ib.length % 8 ≠ 0 then none
    else
      let idx := parseWords ib
      let vals := (splitZ vb).map (fun b => if b = [3] then none else some b)
      if idx.length ≠ vals.length then none
      else if isMonotone idx then some (idx.zip vals)
      else none

end Codec

namespace Codec

theorem toLE_length : ∀ (k n : Nat), (toLE k n).length = k := by
  intro k
  induction k with
  | zero => intro n; rfl
  | succ k ih => intro n; simp [toLE, ih]

theorem fromLE_toLE : ∀ (k n : Nat), n < 256 ^ k → fromLE (toLE k n) = n := by
  intro k
  induction k with
  | zero =>
    intro n h
    simp only [Nat.pow_zero, Nat.lt_one_iff] at h
    simp [toLE, fromLE, h]
  | succ k ih =>
    intro n h
    have hdiv : n / 256 < 256 ^ k := by
      rw [Nat.div_lt_iff_lt_mul (by norm_num)]
      calc n < 256 ^ (k + 1) := h
      _ = 256 ^ k * 256 := by ring
    rw [toLE, fromLE, ih _ hdiv]
    omega

theorem fromBE_beU32 {n : Nat} (h : n < 2 ^ 32) : fromBE (beU32 n) = n := by
  rw [fromBE, beU32, List.reverse_reverse]
  exact fromLE_toLE 4 n (by norm_num at h ⊢; omega)

theorem beU32_length (n : Nat) : (beU32 n).length = 4 := by
  rw [beU32, List.length_reverse, toLE_length]

theorem flatten8_length : ∀ (ns : List Nat), ((ns.map (toLE 8)).flatten).length = 8 * ns.length := by
  intro ns
  induction ns with
  | nil => rfl
  | cons n rest ih =>
    simp only [List.map_cons, List.flatten_cons, List.length_append, toLE_length, ih,
      List.length_cons]
    ring

theorem parseWords_cons8 (n : Nat) (rest : List Nat) :
    parseWords (toLE 8 n ++ rest) = fromLE (toLE 8 n) :: parseWords rest := by
  show parseWords (n % 256 :: toLE 7 (n / 256) ++ rest) = _
  simp only [toLE, List.cons_append, List.nil_append]
  rfl

theorem parseWords_flatten : ∀ (ns : List Nat), (∀ n ∈ ns, n < 2 ^ 64) →
    parseWords ((ns.map (toLE 8)).flatten) = ns := by
  intro ns
  induction ns with
  | nil => intro _; rfl
  | cons n rest ih =>
    intro hb
    rw [List.map_cons, List.flatten_cons, parseWords_cons8,
        fromLE_toLE 8 n (by have := hb n (by simp); norm_num at this ⊢; omega),
        ih (fun m hm => hb m (by simp [hm]))]

theorem splitZ_no_zero : ∀ {p : List Nat}, 0 ∉ p → splitZ p = [p] := by
  intro p
  induction p with
  | nil => intro _; rfl
  | cons b rest ih =>
    intro h
    have hb : ¬ b = 0 := fun hb => h (by simp [hb])
    rw [splitZ, if_neg hb, ih (fun hm => h (by simp [hm]))]

theorem splitZ_append_zero : ∀ {p t : List Nat}, 0 ∉ p →
    splitZ (p ++ 0 :: t) = p :: splitZ t := by
  intro p
  induction p with
  | nil =>
    intro t _
    simp [splitZ]
  | cons b rest ih =>
    intro t h
    have hb : ¬ b = 0 := fun hb => h (by simp [hb])
    rw [List.cons_append, splitZ, if_neg hb, ih (fun hm => h (by simp [hm]))]

theorem splitZ_joinZ : ∀ {parts : List (List Nat)}, parts ≠ [] →
    (∀ p ∈ parts, 0 ∉ p) → splitZ (joinZ parts) = parts := by
  intro parts
  induction parts with
  | nil => intro h _; exact absurd rfl h
  | cons p rest ih =>
    intro _ hz
    cases rest with
    | nil => exact splitZ_no_zero (hz p (by simp))
    | cons q rest2 =>
      rw [show joinZ (p :: q :: rest2) = p ++ 0 :: joinZ (q :: rest2) from rfl,
          splitZ_append_zero (hz p (by simp)),
          ih (by simp) (fun x hx => hz x (by simp [hx]))]

theorem zip_fst_snd {α β : Type} : ∀ (ts : List (α × β)),
    (ts.map Prod.fst).zip (ts.map Prod.snd) = ts := by
  intro ts
  induction ts with
  | nil => rfl
  | cons p rest ih => simp [ih]

theorem isMonotone_of_pairwise : ∀ {l : List Nat}, l.Pairwise (· < ·) →
    isMonotone l = true := by
  intro l
  induction l with
  | nil => intro _; rfl
  | cons a rest ih =>
    intro h
    cases rest with
    | nil => rfl
    | cons b rest2 =>
      rw [List.pairwise_cons] at h
      show ((a ≤ b : Bool) && isMonotone (b :: rest2)) = true
      rw [ih h.2]
      have hab : a < b := h.1 b (by simp)
      simp
      omega

end Codec

namespace Codec

theorem decode_prefix (I V : List Nat) (hL : I.length < 2 ^ 32) :
    ((beU32 I.length ++ I ++ V).length < 4) = False ∧
    fromBE ((beU32 I.length ++ I ++ V).take 4) = I.length ∧
    ((beU32 I.length ++ I ++ V).drop 4).take I.length = I ∧
    ((beU32 I.length ++ I ++ V).drop 4).drop I.length = V := by
  have htake : (beU32 I.length ++ I ++ V).take 4 = beU32 I.length := by
    rw [List.append_assoc, ← beU32_length I.length]
    exact List.take_left _ _
  have hdrop : (beU32 I.length ++ I ++ V).drop 4 = I ++ V := by
    rw [List.append_assoc, ← beU32_length I.length]
    exact List.drop_left _ _
  refine ⟨?_, ?_, ?_, ?_⟩
  · simp only [List.length_append, beU32_length, eq_iff_iff, iff_false]
    omega
  · rw [htake, fromBE_beU32 hL]
  · rw [hdrop]
    exact List.take_left _ _
  · rw [hdrop]
    exact List.drop_left _ _

theorem decodeF_encoded (idx vals : List Nat)
    (hib : ∀ n ∈ idx, n < 2 ^ 64) (hvb : ∀ n ∈ vals, n < 2 ^ 64)
    (hlen : idx.length = vals.length)
    (hL : ((idx.map (toLE 8)).flatten).length < 2 ^ 32)
    (hmono : isMonotone idx = true) :
    decodeF (beU32 ((idx.map (toLE 8)).flatten).length ++
        (idx.map (toLE 8)).flatten ++ (vals.map (toLE 8)).flatten) =
      some (idx.zip vals) := by
  rcases decode_prefix ((idx.map (toLE 8)).flatten) ((vals.map (toLE 8)).flatten) hL with
    ⟨h4, hpre, hib2, hvb2⟩
  rw [decodeF, if_neg (by rw [h4]; exact id)]
  simp only [hpre, hib2, hvb2]
  have hIlen : ((idx.map (toLE 8)).flatten).length = 8 * idx.length := flatten8_length idx
  have hVlen : ((vals.map (toLE 8)).flatten).length = 8 * vals.length := flatten8_length vals
  rw [if_neg (by rw [hIlen, hVlen]; simp)]
  rw [parseWords_flatten idx hib, parseWords_flatten vals hvb]
  rw [if_neg (by omega), if_pos hmono]

theorem decodeS_encoded (idx : List Nat) (vals : List (Option (List Nat)))
    (hib : ∀ n ∈ idx, n < 2 ^ 64)
    (hlen : idx.length = vals.length)
    (hvne : vals ≠ [])
    (hz : ∀ str ∈ vals, ∀ bs, str = some bs → 0 ∉ bs ∧ 3 ∉ bs)
    (hL : ((idx.map (toLE 8)).flatten).length < 2 ^ 32)
    (hmono : isMonotone idx = true) :
    decodeS (beU32 ((idx.map (toLE 8)).flatten).length ++
        (idx.map (toLE 8)).flatten ++
        joinZ (vals.map (fun v => match v with | none => [3] | some str => str))) =
      some (idx.zip vals) := by
  rcases decode_prefix ((idx.map (toLE 8)).flatten)
      (joinZ (vals.map (fun v => match v with | none => [3] | some str => str))) hL with
    ⟨h4, hpre, hib2, hvb2⟩
  rw [decodeS, if_neg (by rw [h4]; exact id)]
  simp only [hpre, hib2, hvb2]
  have hIlen : ((idx.map (toLE 8)).flatten).length = 8 * idx.length := flatten8_length idx
  rw [if_neg (by rw [hIlen]; simp)]
  rw [parseWords_flatten idx hib]
  have hsplit : splitZ (joinZ (vals.map (fun v => match v with
      | none => [3]
      | some str => str))) = vals.map (fun v => match v with
      | none => [3]
      | some str => str) := by
    refine splitZ_joinZ ?_ ?_
    · intro h
      rw [List.map_eq_nil_iff] at h
      exact hvne h
    · intro p hp
      rcases List.mem_map.1 hp with ⟨v, hv, rfl⟩
      cases v with
      | none => simp
      | some str => exact (hz _ hv str rfl).1
  rw [hsplit, List.map_map]
  have hmapid : vals.map ((fun b => if b = [3] then none else some b) ∘
      (fun v => match v with | none => [3] | some str => str)) = vals := by
    refine List.map_congr_left ?_ |>.trans (List.map_id vals)
    intro v hv
    cases v with
    | none => simp
    | some str =>
      have h3 : str ≠ [3] := by
        intro h
        exact (hz _ hv str rfl).2 (by rw [h]; simp)
      simp [h3]
  rw [hmapid]
  rw [if_neg (by omega), if_pos hmono]

end Codec

open Codec in
/-- C9 (corrected).  For a float64 series whose index is monotone
non-decreasing, whose index and value words fit in 64 bits, and which
has fewer than `2 ^ 29` points (so the index byte count fits the `!L`
length prefix), and for a NON-EMPTY string series under the same index
conditions whose string values avoid the reserved bytes `\x00` and
`\x03`, serializing and then decoding the produced chunk payload
yields an exactly equal series (same index, same values, nulls
preserved); and serializing any string series one of whose values
contains a reserved byte fails (the `assert` safety belt).  The
original claim is false for the EMPTY string series: decoding its
payload splits the empty value section into one empty string, failing
the `len(values) == len(index)` assert (see the counterexample). -/
theorem claim_C9
    (tsf : List (Nat × Nat)) (tss : List (Nat × Option (List Nat)))
    (hfmono : Codec.isMonotone (tsf.map Prod.fst) = true)
    (hfib : ∀ p ∈ tsf, p.1 < 2 ^ 64) (hfvb : ∀ p ∈ tsf, p.2 < 2 ^ 64)
    (hflen : tsf.length < 2 ^ 29)
    (hsmono : Codec.isMonotone (tss.map Prod.fst) = true)
    (hsib : ∀ p ∈ tss, p.1 < 2 ^ 64)
    (hslen : tss.length < 2 ^ 29)
    (hsne : tss ≠ [])
    (hsz : ∀ p ∈ tss, ∀ bs, p.2 = some bs → 0 ∉ bs ∧ 3 ∉ bs) :
    (serializeF tsf).bind decodeF = some tsf ∧
    (serializeS tss).bind decodeS = some tss ∧
    (∀ (tsr : List (Nat × Option (List Nat))) (p : Nat × Option (List Nat))
        (bs : List Nat), p ∈ tsr → p.2 = some bs → (0 ∈ bs ∨ 3 ∈ bs) →
      serializeS tsr = none) := by
  have h29 : (2 : Nat) ^ 29 = 536870912 := by norm_num
  have h32 : (2 : Nat) ^ 32 = 4294967296 := by norm_num
  refine ⟨?_, ?_, ?_⟩
  · -- float roundtrip
    have hidx : tsf.map (fun p => toLE 8 p.1) = (tsf.map Prod.fst).map (toLE 8) := by
      rw [List.map_map]; rfl
    have hval : tsf.map (fun p => toLE 8 p.2) = (tsf.map Prod.snd).map (toLE 8) := by
      rw [List.map_map]; rfl
    have hIlen : (((tsf.map Prod.fst).map (toLE 8)).flatten).length = 8 * tsf.length := by
      rw [flatten8_length, List.length_map]
    have hlt : (((tsf.map Prod.fst).map (toLE 8)).flatten).length < 2 ^ 32 := by
      rw [hIlen]; omega
    have hser : serializeF tsf =
        some (beU32 (((tsf.map Prod.fst).map (toLE 8)).flatten).length ++
          ((tsf.map Prod.fst).map (toLE 8)).flatten ++
          ((tsf.map Prod.snd).map (toLE 8)).flatten) := by
      rw [serializeF]
      simp only [hidx, hval]
      rw [if_pos hlt]
    rw [hser, Option.some_bind]
    rw [decodeF_encoded (tsf.map Prod.fst) (tsf.map Prod.snd)
      (fun n hn => by
        rcases List.mem_map.1 hn with ⟨p, hp, rfl⟩
        exact hfib p hp)
      (fun n hn => by
        rcases List.mem_map.1 hn with ⟨p, hp, rfl⟩
        exact hfvb p hp)
      (by simp)
      hlt
      hfmono]
    rw [zip_fst_snd]
  · -- string roundtrip
    have hidx : tss.map (fun p => toLE 8 p.1) = (tss.map Prod.fst).map (toLE 8) := by
      rw [List.map_map]; rfl
    have hval : tss.map (fun p => match p.2 with | none => [3] | some str => str) =
        (tss.map Prod.snd).map (fun v => match v with | none => [3] | some str => str) := by
      rw [List.map_map]; rfl
    have hIlen : (((tss.map Prod.fst).map (toLE 8)).flatten).length = 8 * tss.length := by
      rw [flatten8_length, List.length_map]
    have hlt : (((tss.map Prod.fst).map (toLE 8)).flatten).length < 2 ^ 32 := by
      rw [hIlen]; omega
    have hguard : tss.any (fun p => match p.2 with
        | some str => str.contains 0 || str.contains 3
        | none => false) = false := by
      rw [List.any_eq_false]
      intro p hp
      rcases p with ⟨i, v⟩
      cases v with
      | none => simp
      | some str =>
        have hz' := hsz ⟨i, some str⟩ hp str rfl
        simp [hz'.1, hz'.2]
    have hser : serializeS tss =
        some (beU32 (((tss.map Prod.fst).map (toLE 8)).flatten).length ++
          ((tss.map Prod.fst).map (toLE 8)).flatten ++
          joinZ ((tss.map Prod.snd).map
            (fun v => match v with | none => [3] | some str => str))) := by
      rw [serializeS]
      simp only [hidx, hval, hguard, Bool.false_eq_true, if_false]
      rw [if_pos hlt]
    rw [hser, Option.some_bind]
    rw [decodeS_encoded (tss.map Prod.fst) (tss.map Prod.snd)
      (fun n hn => by
        rcases List.mem_map.1 hn with ⟨p, hp, rfl⟩
        exact hsib p hp)
      (by simp)
      (fun h => hsne (List.map_eq_nil_iff.1 h))
      (fun str hstr bs hbs => by
        rcases List.mem_map.1 hstr with ⟨p, hp, rfl⟩
        exact hsz p hp bs hbs)
      hlt
      hsmono]
    rw [zip_fst_snd]
  · -- rejection of reserved bytes
    intro tsr p bs hp hbs hres
    have hany : tsr.any (fun p => match p.2 with
        | some str => str.contains 0 || str.contains 3
        | none => false) = true := by
      refine List.any_eq_true.2 ⟨p, hp, ?_⟩
      rw [hbs]
      rcases hres with h | h <;> simp [h]
    rw [serializeS]
    simp only [hany, if_true]

/-- C9 counterexample: the EMPTY string series does not roundtrip.
Its payload carries zero index bytes and an empty value section, but
`b''.split(b'\0')` yields one (empty) string, so `_chunks_to_ts` fails
its `len(values) == len(index)` assert — decoding returns no series at
all, let alone an equal one. -/
theorem claim_C9_counterexample :
    (Codec.serializeS ([] : List (Nat × Option (List Nat)))).bind Codec.decodeS
      ≠ some ([] : List (Nat × Option (List Nat))) := by
  decide

/-- C9 witness: a two-point float series and a one-point string series
roundtrip exactly, and a string series holding a reserved byte is
rejected. -/
theorem claim_C9_witness :
    (Codec.serializeF [(1, 77), (2, 88)]).bind Codec.decodeF = some [(1, 77), (2, 88)] ∧
    (Codec.serializeS [(1, some [65])]).bind Codec.decodeS = some [(1, some [65])] ∧
    Codec.serializeS [(1, some [0])] = none := by
  have h := claim_C9 [(1, 77), (2, 88)] [(1, some [65])]
    (by decide) (by decide) (by decide) (by decide)
    (by decide) (by decide) (by decide) (by decide)
    (by decide)
  exact ⟨h.1, h.2.1, h.2.2 [(1, some [0])] (1, some [0]) [0] (by decide) rfl (Or.inl (by decide))⟩

/-- The `while ju - jl > 1` loop of `util.bisect_search`: halve the
bracket, keeping the lower bound when `value >= values[jm]`.
`jm = (ju+jl) >> 1`. -/
def bsLoop (values : List Int) (value : Int) (jl ju : Nat) : Nat :=
  if ju - jl > 1 then
    if value ≥ values.getD ((ju + jl) / 2) 0 then bsLoop values value ((ju + jl) / 2) ju
    else bsLoop values value jl ((ju + jl) / 2)
  else jl
termination_by ju - jl
decreasing_by
  · omega
  · omega

/-- `util.bisect_search`: the sentinel/edge cases, then the bisection
loop started at `jl = 0`, `ju = n - 1`.  (`values[-1]` is
`values[n-1]`; the caller guarantees a non-empty list, on which the
`getD` default is never read.) -/
def bisect_search (values : List Int) (value : Int) : Int :=
  if value < values.getD 0 0 then -1
  else if value > values.getD (values.length - 1) 0 then (values.length : Int)
  else if value = values.getD 0 0 then 0
  else if value = values.getD (values.length - 1) 0 then (values.length : Int) - 1
  else (bsLoop values value 0 (values.length - 1) : Int)

theorem getD_lt_getD {values : List Int} (hmono : values.Pairwise (· < ·))
    {i j : Nat} (hij : i < j) (hj : j < values.length) :
    values.getD i 0 < values.getD j 0 := by
  rw [List.getD_eq_getElem values 0 (lt_trans hij hj), List.getD_eq_getElem values 0 hj]
  exact List.pairwise_iff_getElem.1 hmono i j (lt_trans hij hj) hj hij

theorem bsLoop_spec (values : List Int) (value : Int) :
    ∀ (k jl ju : Nat), ju - jl ≤ k → jl < ju → ju < values.length →
    values.getD jl 0 ≤ value → value < values.getD ju 0 →
    jl ≤ bsLoop values value jl ju ∧ bsLoop values value jl ju + 1 ≤ ju ∧
    values.getD (bsLoop values value jl ju) 0 ≤ value ∧
    value < values.getD (bsLoop values value jl ju + 1) 0 := by
  intro k
  induction k with
  | zero => intro jl ju hk hlt _ _ _; omega
  | succ k ih =>
    intro jl ju hk hlt hju hl hu
    rw [bsLoop]
    by_cases hgap : ju - jl > 1
    · rw [if_pos hgap]
      by_cases hge : value ≥ values.getD ((ju + jl) / 2) 0
      · rw [if_pos hge]
        have := ih ((ju + jl) / 2) ju (by omega) (by omega) hju hge hu
        omega
      · rw [if_neg hge]
        have := ih jl ((ju + jl) / 2) (by omega) (by omega) (by omega) hl (by omega)
        omega
    · rw [if_neg hgap]
      have hju1 : ju = jl + 1 := by omega
      refine ⟨le_refl jl, by omega, hl, ?_⟩
      rw [← hju1]
      exact hu

/-- C10 (corrected).  For a non-empty STRICTLY increasing list,
`bisect_search` returns `-1` below the range, `len(values)` above it,
and otherwise an index `j ≤ len-1` with `values[j] ≤ value` and either
`j = len-1` or `value < values[j+1]`.  The original claim, stated for
merely monotonically increasing lists, fails on lists with repeated
values (see the counterexample). -/
theorem claim_C10 (values : List Int) (value : Int)
    (hne : values ≠ [])
    (hmono : values.Pairwise (· < ·)) :
    (value < values.getD 0 0 → bisect_search values value = -1) ∧
    (value > values.getD (values.length - 1) 0 →
      bisect_search values value = (values.length : Int)) ∧
    (values.getD 0 0 ≤ value → value ≤ values.getD (values.length - 1) 0 →
      ∃ j : Nat, bisect_search values value = (j : Int) ∧ j ≤ values.length - 1 ∧
        values.getD j 0 ≤ value ∧
        (j = values.length - 1 ∨ value < values.getD (j + 1) 0)) := by
  have hn : 0 < values.length := List.length_pos.2 hne
  have hfl : values.getD 0 0 ≤ values.getD (values.length - 1) 0 := by
    rcases Nat.eq_or_lt_of_le hn with h1 | h1
    · rw [show values.length - 1 = 0 by omega]
    · exact le_of_lt (getD_lt_getD hmono (by omega) (by omega))
  refine ⟨?_, ?_, ?_⟩
  · intro h
    rw [bisect_search, if_pos h]
  · intro h
    rw [bisect_search, if_neg (by omega), if_pos h]
  · intro hf hl
    rw [bisect_search, if_neg (not_lt.2 hf), if_neg (not_lt.2 hl)]
    by_cases hef : value = values.getD 0 0
    · rw [if_pos hef]
      refine ⟨0, rfl, by omega, le_of_eq hef.symm, ?_⟩
      rcases Nat.eq_or_lt_of_le hn with h1 | h1
      · exact Or.inl (by omega)
      · exact Or.inr (hef ▸ getD_lt_getD hmono (by omega) (by omega))
    · rw [if_neg hef]
      by_cases hel : value = values.getD (values.length - 1) 0
      · rw [if_pos hel]
        exact ⟨values.length - 1, by omega, le_refl _, le_of_eq hel.symm, Or.inl rfl⟩
      · rw [if_neg hel]
        have hn2 : 2 ≤ values.length := by
          by_contra hc
          have h1 : values.length = 1 := by omega
          apply hef
          rw [h1, show (1 : Nat) - 1 = 0 from rfl] at hl
          omega
        have hspec := bsLoop_spec values value (values.length - 1) 0 (values.length - 1)
          (le_refl _) (by omega) (by omega) hf (lt_of_le_of_ne hl hel)
        exact ⟨bsLoop values value 0 (values.length - 1), rfl, by omega, hspec.2.2.1,
          Or.inr hspec.2.2.2⟩

/-- C10 counterexample: on the monotone (but not strictly) increasing
list `[5, 5]` with `value = 5`, the function returns `0`, yet `0` is
not the last index and `values[1] = 5` is not greater than `value`, so
the claimed postcondition fails. -/
theorem claim_C10_counterexample :
    ([(5 : Int), 5]).Pairwise (· ≤ ·) ∧
    ¬ ((5 : Int) < ([(5 : Int), 5]).getD 0 0) ∧
    ¬ ((5 : Int) > ([(5 : Int), 5]).getD (([(5 : Int), 5]).length - 1) 0) ∧
    bisect_search [(5 : Int), 5] 5 = 0 ∧
    ¬ ((0 : Nat) = ([(5 : Int), 5]).length - 1 ∨
        (5 : Int) < ([(5 : Int), 5]).getD (0 + 1) 0) := by
  refine ⟨by decide, by decide, by decide, ?_, by decide⟩
  rw [bisect_search]
  decide

/-- C10 witness: on the strictly increasing list `[1, 3, 5, 7]` with
`value = 4` the corrected specification holds. -/
theorem claim_C10_witness :
    ([1, 3, 5, 7] : List Int) ≠ [] ∧
    ([1, 3, 5, 7] : List Int).Pairwise (· < ·) ∧
    (((4 : Int) < ([1, 3, 5, 7] : List Int).getD 0 0 →
        bisect_search [1, 3, 5, 7] 4 = -1) ∧
      ((4 : Int) > ([1, 3, 5, 7] : List Int).getD
          (([1, 3, 5, 7] : List Int).length - 1) 0 →
        bisect_search [1, 3, 5, 7] 4 = (([1, 3, 5, 7] : List Int).length : Int)) ∧
      (([1, 3, 5, 7] : List Int).getD 0 0 ≤ (4 : Int) →
        (4 : Int) ≤ ([1, 3, 5, 7] : List Int).getD
          (([1, 3, 5, 7] : List Int).length - 1) 0 →
        ∃ j : Nat, bisect_search [1, 3, 5, 7] 4 = (j : Int) ∧
          j ≤ ([1, 3, 5, 7] : List Int).length - 1 ∧
          ([1, 3, 5, 7] : List Int).getD j 0 ≤ (4 : Int) ∧
          (j = ([1, 3, 5, 7] : List Int).length - 1 ∨
            (4 : Int) < ([1, 3, 5, 7] : List Int).getD (j + 1) 0))) :=
  ⟨by decide, by decide, claim_C10 [1, 3, 5, 7] 4 (by decide) (by decide)⟩
